import Mathlib

/-!
Verification of the kafka-clone storage core (`internal/logstore/segment.go`,
`internal/logstore/partition.go`, `internal/topics/registry.go`) against its
natural-language specification.

The Go code is shallowly embedded: files are byte lists (`List Nat`, each
element a byte value), structs become Lean structures, and the in-place
mutation of `*Segment` / `*Partition` becomes explicit state passing.
Go's `int64` arithmetic on offsets and sizes is modelled with `Nat`: a
counter can only overflow after 2^63 appends, each of which writes at least
16 bytes, which no file system can hold; theorems that depend on the byte
encoding of an offset carry an explicit `< 2^63` bound.  The `int32` casts
that the source performs when storing index entries are kept as `% 2^32`.
I/O failures are injected through boolean oracles, and loops that Go writes
as `for {}` are given an explicit iteration bound (fuel) that is always
supplied strictly larger than the number of iterations the loop can make.
-/

namespace KafkaClone

/-! ### Big-endian byte encoding (`encoding/binary`, binary.BigEndian) -/

/-- Big-endian bytes of `n`, width `w` (the bit pattern of the Go integer,
so the value is implicitly reduced mod `256 ^ w`). -/
def toBytesBE : Nat → Nat → List Nat
  | 0, _ => []
  | w + 1, n => (n / 256 ^ w % 256) :: toBytesBE w n

/-- Decode big-endian bytes to a natural number. -/
def fromBytesBE : List Nat → Nat
  | [] => 0
  | b :: bs => b * 256 ^ bs.length + fromBytesBE bs

@[simp] theorem toBytesBE_length (w n : Nat) : (toBytesBE w n).length = w := by
  induction w generalizing n with
  | zero => rfl
  | succ w ih => simp [toBytesBE, ih]

theorem fromBytesBE_toBytesBE (w n : Nat) : fromBytesBE (toBytesBE w n) = n % 256 ^ w := by
  induction w generalizing n with
  | zero => simp [toBytesBE, fromBytesBE, Nat.mod_one]
  | succ w ih =>
      simp only [toBytesBE, fromBytesBE, toBytesBE_length, ih]
      rw [Nat.pow_succ, Nat.mod_mul]
      ring

/-! ### CRC-32 (IEEE), `hash/crc32.ChecksumIEEE` -/

/-- The reversed IEEE polynomial used by `crc32.IEEETable`. -/
def crcPoly : Nat := 0xEDB88320

/-- One bit step of the CRC-32 shift register. -/
def crcStep (c : Nat) : Nat := if c % 2 = 1 then c / 2 ^^^ crcPoly else c / 2

/-- Fold one byte into the CRC state (`b % 256` embeds the Go `byte` type:
a log payload is a `[]byte`, every element of which is below 256). -/
def crcByte (c b : Nat) : Nat := crcStep^[8] (c ^^^ b % 256)

/-- `crc32.ChecksumIEEE` over a byte list. -/
def crc32 (data : List Nat) : Nat := (data.foldl crcByte 0xFFFFFFFF) ^^^ 0xFFFFFFFF

theorem crcStep_lt {c : Nat} (h : c < 2 ^ 32) : crcStep c < 2 ^ 32 := by
  unfold crcStep
  split
  · exact Nat.xor_lt_two_pow (by omega) (by norm_num [crcPoly])
  · omega

theorem crcByte_lt {c : Nat} (b : Nat) (h : c < 2 ^ 32) : crcByte c b < 2 ^ 32 := by
  have hx : c ^^^ b % 256 < 2 ^ 32 :=
    Nat.xor_lt_two_pow h (lt_of_lt_of_le (Nat.mod_lt _ (by norm_num)) (by norm_num))
  unfold crcByte
  have : ∀ n x, x < 2 ^ 32 → crcStep^[n] x < 2 ^ 32 := by
    intro n
    induction n with
    | zero => intro x hx; simpa using hx
    | succ n ih =>
        intro x hx
        rw [Function.iterate_succ_apply]
        exact ih _ (crcStep_lt hx)
  exact this 8 _ hx

theorem crc32_lt (data : List Nat) : crc32 data < 2 ^ 32 := by
  have h : ∀ l c, c < 2 ^ 32 → List.foldl crcByte c l < 2 ^ 32 := by
    intro l
    induction l with
    | nil => intro c hc; simpa using hc
    | cons b l ih => intro c hc; exact ih _ (crcByte_lt b hc)
  exact Nat.xor_lt_two_pow (h data 0xFFFFFFFF (by norm_num)) (by norm_num)

@[simp] theorem crc32_nil : crc32 [] = 0 := by decide

/-! ### Data model (`segment.go`) -/

def segmentMaxBytes : Nat := 128 * 1024 * 1024

def indexInterval : Nat := 4096

structure LogEntry where
  offset : Nat
  payload : List Nat
  deriving DecidableEq, Repr

structure IndexEntry where
  relativeOffset : Nat
  position : Nat
  deriving DecidableEq, Repr

/-- A `Segment`: the two file contents plus the in-memory fields.  `log` and
`indexFile` are the byte contents of the `.log` and `.index` files. -/
structure Segment where
  baseOffset : Nat
  log : List Nat
  indexFile : List Nat
  size : Nat
  nextOffset : Nat
  indexEntries : List IndexEntry
  deriving DecidableEq, Repr

/-- The segment produced by `NewSegment(dir, baseOffset)` when the two files
do not exist yet (they are created empty, `Stat` returns size 0 and recovery
finds nothing). -/
def freshSegment (baseOffset : Nat) : Segment :=
  ⟨baseOffset, [], [], 0, baseOffset, []⟩

/-! ### `Segment.Append`

`wfail n = true` makes the `n`-th write of the call fail (writes are numbered
0 = offset, 1 = length, 2 = crc, 3 = payload, 4 = index relative offset,
5 = index position), modelling an I/O error surfacing from `binary.Write` /
`File.Write`.  On an error the partially mutated segment is returned, exactly
as the Go method leaves the partially written files behind. -/

def Segment.append (s : Segment) (entry : LogEntry) (wfail : Nat → Bool) :
    Segment × Option String :=
  -- entry.Offset = s.nextOffset: Go mutates its local copy of the entry
  -- (LogEntry is passed by value), so the caller's record is unaffected.
  let off := s.nextOffset
  let crc := crc32 entry.payload
  let position := s.log.length        -- logFile.Seek(0, io.SeekEnd)
  if wfail 0 then (s, some "write error") else
  let s1 : Segment := { s with log := s.log ++ toBytesBE 8 off }
  if wfail 1 then (s1, some "write error") else
  let s2 : Segment := { s1 with log := s1.log ++ toBytesBE 4 entry.payload.length }
  if wfail 2 then (s2, some "write error") else
  let s3 : Segment := { s2 with log := s2.log ++ toBytesBE 4 crc }
  if wfail 3 then (s3, some "write error") else
  let s4 : Segment := { s3 with log := s3.log ++ entry.payload,
                                size := position + 8 + 4 + 4 + entry.payload.length }
  let needIndex :=
    match s4.indexEntries.getLast? with
    | none => true
    | some last => decide (4096 ≤ position - last.position)
  if needIndex then
    if wfail 4 then (s4, some "write error") else
    -- int32(entry.Offset - s.baseOffset) and int32(position): the casts keep
    -- the low 32 bits (offsets never precede the base in reachable states).
    let rel := (off - s.baseOffset) % 2 ^ 32
    let s5 : Segment := { s4 with indexFile := s4.indexFile ++ toBytesBE 4 rel }
    if wfail 5 then (s5, some "write error") else
    let s6 : Segment := { s5 with indexFile := s5.indexFile ++ toBytesBE 4 (position % 2 ^ 32),
                                  indexEntries := s4.indexEntries ++ [⟨rel, position % 2 ^ 32⟩] }
    ({ s6 with nextOffset := s.nextOffset + 1 }, none)
  else
    ({ s4 with nextOffset := s.nextOffset + 1 }, none)

/-- Fault-free write oracle. -/
def noFail : Nat → Bool := fun _ => false

/-- The segment state after a fault-free `Append`. -/
def Segment.appendOk (s : Segment) (entry : LogEntry) : Segment :=
  (s.append entry noFail).1

/-! ### `Segment.Read` -/

inductive ReadResult where
  | ok (entry : LogEntry)
  | err (msg : String)
  | panicked
  deriving DecidableEq, Repr

/-- `sort.Search`'s binary-search loop.  The fuel only bounds the number of
iterations; it is always supplied above `j - i`, which the halving interval
never exceeds. -/
def searchLoop (pred : Nat → Bool) : Nat → Nat → Nat → Nat
  | 0, i, _ => i
  | fuel + 1, i, j =>
      if i < j then
        let h := (i + j) / 2
        if pred h then searchLoop pred fuel i h
        else searchLoop pred fuel (h + 1) j
      else i

/-- `sort.Search(n, pred)`. -/
def sortSearch (n : Nat) (pred : Nat → Bool) : Nat := searchLoop pred (n + 1) 0 n

def Segment.findPosition (s : Segment) (offset : Nat) : Nat :=
  let relativeOffset := (offset - s.baseOffset) % 2 ^ 32  -- int32 cast
  let idx := sortSearch s.indexEntries.length
    (fun i => decide (relativeOffset < (s.indexEntries.getD i ⟨0, 0⟩).relativeOffset))
  if idx = 0 then 0
  else (s.indexEntries.getD (idx - 1) ⟨0, 0⟩).position

/-- Outcome of reading one framed record at byte `pos`: the shared sequence
`binary.Read offset; binary.Read length; binary.Read crc; io.ReadFull payload`
performed by both `recover` and `Read`.  `eof` is `io.EOF` on the very first
read; a partial frame yields the corresponding read error; a length with the
int32 sign bit set makes `make([]byte, length)` panic. -/
inductive FrameRead where
  | eof
  | ioErr (msg : String)
  | negLen
  | frame (off len crc : Nat) (payload : List Nat)
  deriving DecidableEq, Repr

def readFrame (log : List Nat) (pos : Nat) : FrameRead :=
  let n := log.length
  if n ≤ pos then .eof
  else if n < pos + 8 then .ioErr "unexpected EOF"
  else
    let off := fromBytesBE ((log.drop pos).take 8)
    if n = pos + 8 then .ioErr "EOF"
    else if n < pos + 12 then .ioErr "unexpected EOF"
    else
      let len := fromBytesBE ((log.drop (pos + 8)).take 4)
      if n = pos + 12 then .ioErr "EOF"
      else if n < pos + 16 then .ioErr "unexpected EOF"
      else
        let crc := fromBytesBE ((log.drop (pos + 12)).take 4)
        if 2 ^ 31 ≤ len then .negLen
        else if n = pos + 16 ∧ 0 < len then .ioErr "EOF"
        else if n < pos + 16 + len then .ioErr "unexpected EOF"
        else .frame off len crc ((log.drop (pos + 16)).take len)

/-- The scan loop of `Segment.Read`, starting at byte `pos`.  Every read
error surfaces (`Read` does not treat EOF as a clean stop).  The fuel only
bounds iterations and is always supplied above the number of frames the log
can hold. -/
def readScanF : Nat → List Nat → Nat → Nat → ReadResult
  | 0, _, _, _ => .err "loop bound exhausted"
  | fuel + 1, log, pos, target =>
      match readFrame log pos with
      | .eof => .err "EOF"
      | .ioErr msg => .err msg
      | .negLen => .panicked
      | .frame off len _crc payload =>
          if off = target then .ok ⟨off, payload⟩
          else if target < off then .err ("offset " ++ toString target ++ " not found")
          else readScanF fuel log (pos + 16 + len) target

/-- The scan with its canonical fuel: each iteration consumes at least 16
bytes, so `log.length + 1` iterations can never be exhausted. -/
def readScan (log : List Nat) (pos target : Nat) : ReadResult :=
  readScanF (log.length + 1) log pos target

def Segment.read (s : Segment) (offset : Nat) : ReadResult :=
  if offset < s.baseOffset ∨ s.nextOffset ≤ offset then
    .err ("offset " ++ toString offset ++ " out of range [" ++ toString s.baseOffset ++
      ", " ++ toString s.nextOffset ++ ")")
  else
    readScan s.log (s.findPosition offset) offset

/-! ### `Partition` -/

structure Partition where
  id : Nat
  segments : List Segment
  deriving DecidableEq, Repr

/-- `NewPartition` on an empty data directory: `LoadSegments` finds nothing
and a single segment with base offset 0 is created. -/
def Partition.fresh (id : Nat) : Partition := ⟨id, [freshSegment 0]⟩

def Partition.append (p : Partition) (payload : List Nat) : Partition × Except String Nat :=
  match p.segments.getLast? with
  | none =>
      -- Go would panic indexing an empty slice; partitions are never empty.
      (p, .error "runtime error: index out of range")
  | some active =>
      let (segs, act) :=
        if segmentMaxBytes ≤ active.size then
          -- roll: NewSegment(p.dir, active.NextOffset()) on not-yet-existing files
          let ns := freshSegment active.nextOffset
          (p.segments ++ [ns], ns)
        else (p.segments, active)
      -- entry := LogEntry{Payload: payload}: the Offset field is the zero value.
      let entry : LogEntry := ⟨0, payload⟩
      let res := act.append entry noFail
      match res.2 with
      | some msg => ({ p with segments := segs }, .error msg)
      | none =>
          ({ p with segments := segs.dropLast ++ [res.1] },
           -- Go returns entry.Offset: Segment.Append received the entry by
           -- value, so the offset it assigned is invisible here.
           .ok entry.offset)

def Partition.read (p : Partition) (offset : Nat) : ReadResult :=
  match p.segments.find?
      (fun s => decide (s.baseOffset ≤ offset) && decide (offset < s.nextOffset)) with
  | some s => s.read offset
  | none => .err ("offset " ++ toString offset ++ " not found in partition " ++ toString p.id)

def Partition.nextOffset (p : Partition) : Nat :=
  match p.segments.getLast? with
  | none => 0
  | some s => s.nextOffset

/-- State after an append (the Go caller keeps using the same pointer whether
or not the append reported an error). -/
def appendState (p : Partition) (payload : List Nat) : Partition := (p.append payload).1

/-- The partition obtained from a fresh partition by a sequence of appends. -/
def replayPart (trace : List (List Nat)) : Partition := trace.foldl appendState (Partition.fresh 0)

/-! ### Recovery (`Segment.recover`, invoked from `NewSegment`) -/

inductive RecoverOut where
  | ok (nextOffset : Nat) (log : List Nat)
  | fail (msg : String)
  | panicked
  deriving DecidableEq, Repr

/-- The log-scan loop of `recover`: `pos` is the byte position of the start of
the current record, `next` the `nextOffset` computed so far.  Only a clean EOF
at a frame boundary ends the scan normally; a CRC mismatch truncates the log
file to `pos` and stops; every other read error is returned (so `NewSegment`
fails).  The result carries the final `nextOffset` and log content. -/
def recoverScanF : Nat → List Nat → Nat → Nat → RecoverOut
  | 0, _, _, _ => .fail "loop bound exhausted"
  | fuel + 1, log, pos, next =>
      match readFrame log pos with
      | .eof => .ok next log                          -- io.EOF on the offset read: break
      | .ioErr msg => .fail msg                       -- io.EOF elsewhere is returned, not tolerated
      | .negLen => .panicked                          -- make([]byte, negative) panics
      | .frame off len crc payload =>
          if crc ≠ crc32 payload then .ok next (log.take pos)  -- Truncate(position); break
          else recoverScanF fuel log (pos + 16 + len) (off + 1)

/-- The index-load loop of `recover`: consecutive 8-byte pairs; `io.EOF` on
the first field of a pair ends the load, any other read error (including EOF
on the second field) is returned. -/
def loadIndex : List Nat → Except String (List IndexEntry)
  | [] => .ok []
  | a :: b :: c :: d :: e :: f :: g :: h :: rest =>
      (loadIndex rest).map (fun es => ⟨fromBytesBE [a, b, c, d], fromBytesBE [e, f, g, h]⟩ :: es)
  | _ => .error "EOF or unexpected EOF"

/-- The recovery scan with its canonical fuel (never exhausted: each
iteration consumes at least 16 bytes). -/
def recoverScan (log : List Nat) (pos next : Nat) : RecoverOut :=
  recoverScanF (log.length + 1) log pos next

inductive OpenOut where
  | ok (s : Segment)
  | fail (msg : String)
  | panicked
  deriving DecidableEq, Repr

/-- `NewSegment(dir, baseOffset)` on existing files with the given contents:
`size` is taken from `Stat` before recovery (and — as in the source — is not
reduced when recovery truncates the log file), then `recover` runs. -/
def newSegment (baseOffset : Nat) (logBytes indexBytes : List Nat) : OpenOut :=
  match loadIndex indexBytes with
  | .error msg => .fail msg
  | .ok entries =>
      match recoverScan logBytes 0 baseOffset with
      | .panicked => .panicked
      | .fail msg => .fail msg
      | .ok next log2 => .ok ⟨baseOffset, log2, indexBytes, logBytes.length, next, entries⟩

/-! ### `Registry` (`internal/topics/registry.go`) -/

structure Topic where
  name : String
  partitions : List Partition
  deriving DecidableEq, Repr

structure Registry where
  topics : List (String × Topic)
  deriving DecidableEq, Repr

inductive CreateResult where
  | ok (reg : Registry)
  | fail (msg : String) (reg : Registry) (closed : List Nat)
  | panicked
  deriving DecidableEq, Repr

/-- The partition-creation loop of `CreateTopic`: partition ids counting up
from `i`, `k` still to create; `openOk` tells whether `NewPartition` succeeds
for a given id.  Returns the first failing id or the created partitions. -/
def openPartitions (openOk : Nat → Bool) : Nat → Nat → Except Nat (List Partition)
  | _, 0 => .ok []
  | i, k + 1 =>
      if openOk i then (openPartitions openOk (i + 1) k).map (fun ps => Partition.fresh i :: ps)
      else .error i

/-- `Registry.CreateTopic`.  The `closed` list of a failure records which
partition ids were closed during cleanup, in order. -/
def Registry.createTopic (reg : Registry) (name : String) (numPartitions : Int)
    (openOk : Nat → Bool) : CreateResult :=
  if (reg.topics.lookup name).isSome then
    .fail ("topic " ++ name ++ " already exists") reg []
  else if numPartitions < 0 then
    .panicked                      -- make([]*logstore.Partition, negative) panics
  else
    match openPartitions openOk 0 numPartitions.toNat with
    | .error i => .fail "partition open error" reg (List.range i)
    | .ok parts => .ok ⟨reg.topics ++ [(name, ⟨name, parts⟩)]⟩

/-! ### The on-disk layout of a record sequence -/

/-- One framed record: `offset(8) | length(4) | crc(4) | payload`. -/
def encRecord (off : Nat) (p : List Nat) : List Nat :=
  toBytesBE 8 off ++ toBytesBE 4 p.length ++ toBytesBE 4 (crc32 p) ++ p

/-- The log-file bytes of records with payloads `ps` at consecutive offsets
starting at `base`. -/
def frames (base : Nat) : List (List Nat) → List Nat
  | [] => []
  | p :: ps => encRecord base p ++ frames (base + 1) ps

/-- Byte length of `frames base ps` (independent of the base). -/
def framesLen : List (List Nat) → Nat
  | [] => 0
  | p :: ps => 16 + p.length + framesLen ps

/-- Byte position at which record `k` starts. -/
def startPos (ps : List (List Nat)) (k : Nat) : Nat := framesLen (ps.take k)

@[simp] theorem encRecord_length (off : Nat) (p : List Nat) :
    (encRecord off p).length = 16 + p.length := by
  simp only [encRecord, List.length_append, toBytesBE_length]

@[simp] theorem frames_length (base : Nat) (ps : List (List Nat)) :
    (frames base ps).length = framesLen ps := by
  induction ps generalizing base with
  | nil => rfl
  | cons p ps ih => simp [frames, framesLen, ih]

theorem frames_append (base : Nat) (ps qs : List (List Nat)) :
    frames base (ps ++ qs) = frames base ps ++ frames (base + ps.length) qs := by
  induction ps generalizing base with
  | nil => simp [frames]
  | cons p ps ih =>
      simp only [List.cons_append, frames, List.length_cons, List.append_eq]
      rw [ih (base + 1), List.append_assoc]
      have h1 : base + 1 + ps.length = base + (ps.length + 1) := by omega
      rw [h1]

theorem framesLen_append (ps qs : List (List Nat)) :
    framesLen (ps ++ qs) = framesLen ps + framesLen qs := by
  induction ps with
  | nil => simp [framesLen]
  | cons p ps ih => simp [framesLen, ih]; omega

theorem startPos_zero (ps : List (List Nat)) : startPos ps 0 = 0 := rfl

theorem startPos_succ (ps : List (List Nat)) (k : Nat) (hk : k < ps.length) :
    startPos ps (k + 1) = startPos ps k + 16 + (ps.getD k []).length := by
  induction ps generalizing k with
  | nil => simp at hk
  | cons p ps ih =>
      cases k with
      | zero => simp [startPos, framesLen]
      | succ k =>
          simp only [List.length_cons, Nat.add_lt_add_iff_right] at hk
          simp only [startPos, List.take_succ_cons, framesLen, List.getD_cons_succ]
          have := ih k hk
          simp only [startPos] at this
          omega

theorem startPos_snoc (ps : List (List Nat)) (x : List Nat) (k : Nat) (hk : k ≤ ps.length) :
    startPos (ps ++ [x]) k = startPos ps k := by
  simp [startPos, List.take_append_of_le_length hk]

theorem startPos_snoc_last (ps : List (List Nat)) (x : List Nat) :
    startPos (ps ++ [x]) ps.length = framesLen ps := by
  simp [startPos, List.take_append_of_le_length (Nat.le_refl _), List.take_length]

theorem startPos_mono (ps : List (List Nat)) {j k : Nat} (h : j ≤ k) (hk : k ≤ ps.length) :
    startPos ps j ≤ startPos ps k := by
  induction k with
  | zero =>
      have : j = 0 := by omega
      subst this
      exact Nat.le_refl _
  | succ k ih =>
      rcases Nat.lt_or_ge j (k + 1) with hj | hj
      · have h1 := ih (by omega) (by omega)
        have h2 := startPos_succ ps k (by omega)
        omega
      · have : j = k + 1 := by omega
        subst this
        exact Nat.le_refl _

theorem startPos_ge (ps : List (List Nat)) (k : Nat) (hk : k ≤ ps.length) :
    16 * k ≤ startPos ps k := by
  induction k with
  | zero => simp [startPos_zero]
  | succ k ih =>
      have h1 := ih (by omega)
      have h2 := startPos_succ ps k (by omega)
      omega

theorem startPos_add_le (ps : List (List Nat)) (k : Nat) (hk : k < ps.length) :
    startPos ps k + 16 ≤ framesLen ps := by
  have h1 := startPos_succ ps k hk
  have h2 : startPos ps (k + 1) ≤ framesLen ps := by
    have : ps.take (k + 1) ++ ps.drop (k + 1) = ps := List.take_append_drop _ _
    calc startPos ps (k + 1) = framesLen (ps.take (k + 1)) := rfl
      _ ≤ framesLen (ps.take (k + 1)) + framesLen (ps.drop (k + 1)) := by omega
      _ = framesLen ps := by rw [← framesLen_append, this]
  omega

theorem frames_drop (base : Nat) (ps : List (List Nat)) (k : Nat) (hk : k ≤ ps.length) :
    (frames base ps).drop (startPos ps k) = frames (base + k) (ps.drop k) := by
  induction k generalizing base ps with
  | zero => simp [startPos_zero]
  | succ k ih =>
      cases ps with
      | nil => simp at hk
      | cons p ps =>
          simp only [List.length_cons] at hk
          have hk2 : k ≤ ps.length := by omega
          have harr : startPos (p :: ps) (k + 1) = (encRecord base p).length + startPos ps k := by
            simp only [startPos, List.take_succ_cons, framesLen, encRecord_length]
          show (encRecord base p ++ frames (base + 1) ps).drop (startPos (p :: ps) (k + 1)) = _
          have h1 : base + (k + 1) = base + 1 + k := by omega
          rw [harr, List.drop_append, ih (base + 1) ps hk2, List.drop_succ_cons, h1]

/-! ### Parsing one frame -/

theorem encRecord_decomp (o : Nat) (p rest : List Nat) :
    encRecord o p ++ rest =
      toBytesBE 8 o ++ (toBytesBE 4 p.length ++ (toBytesBE 4 (crc32 p) ++ (p ++ rest))) := by
  simp [encRecord, List.append_assoc]

/-- Field extraction for a frame with an arbitrary stored CRC field `c`. -/
theorem frame_fields' {log : List Nat} {pos o c : Nat} {p rest : List Nat}
    (hdrop : log.drop pos =
      toBytesBE 8 o ++ (toBytesBE 4 p.length ++ (toBytesBE 4 c ++ (p ++ rest)))) :
    fromBytesBE ((log.drop pos).take 8) = o % 2 ^ 64 ∧
    fromBytesBE ((log.drop (pos + 8)).take 4) = p.length % 2 ^ 32 ∧
    fromBytesBE ((log.drop (pos + 12)).take 4) = c % 2 ^ 32 ∧
    (log.drop (pos + 16)).take p.length = p ∧
    log.length = pos + 16 + p.length + rest.length := by
  have h64 : (256 : Nat) ^ 8 = 2 ^ 64 := by norm_num
  have h32 : (256 : Nat) ^ 4 = 2 ^ 32 := by norm_num
  have hlen : (log.drop pos).length = 8 + (4 + (4 + (p.length + rest.length))) := by
    rw [hdrop]; simp
  have hlen2 : (log.drop pos).length = log.length - pos := List.length_drop _ _
  have hpos : log.length = pos + 16 + p.length + rest.length := by omega
  have d8 : log.drop (pos + 8) = toBytesBE 4 p.length ++ (toBytesBE 4 c ++ (p ++ rest)) := by
    rw [← List.drop_drop, hdrop, List.drop_left' (toBytesBE_length 8 o)]
  have d12 : log.drop (pos + 12) = toBytesBE 4 c ++ (p ++ rest) := by
    have : pos + 12 = (pos + 8) + 4 := by omega
    rw [this, ← List.drop_drop, d8, List.drop_left' (toBytesBE_length 4 p.length)]
  have d16 : log.drop (pos + 16) = p ++ rest := by
    have : pos + 16 = (pos + 12) + 4 := by omega
    rw [this, ← List.drop_drop, d12, List.drop_left' (toBytesBE_length 4 c)]
  refine ⟨?_, ?_, ?_, ?_, hpos⟩
  · rw [hdrop, List.take_left' (toBytesBE_length 8 o), fromBytesBE_toBytesBE, h64]
  · rw [d8, List.take_left' (toBytesBE_length 4 p.length), fromBytesBE_toBytesBE, h32]
  · rw [d12, List.take_left' (toBytesBE_length 4 c), fromBytesBE_toBytesBE, h32]
  · rw [d16, List.take_left' rfl]

theorem frame_fields {log : List Nat} {pos o : Nat} {p rest : List Nat}
    (hdrop : log.drop pos = encRecord o p ++ rest) :
    fromBytesBE ((log.drop pos).take 8) = o % 2 ^ 64 ∧
    fromBytesBE ((log.drop (pos + 8)).take 4) = p.length % 2 ^ 32 ∧
    fromBytesBE ((log.drop (pos + 12)).take 4) = crc32 p ∧
    (log.drop (pos + 16)).take p.length = p ∧
    log.length = pos + 16 + p.length + rest.length := by
  rw [encRecord_decomp] at hdrop
  obtain ⟨f1, f2, f3, f4, f5⟩ := frame_fields' hdrop
  exact ⟨f1, f2, by rw [f3, Nat.mod_eq_of_lt (crc32_lt p)], f4, f5⟩

/-! ### `readFrame` on well-formed and corrupt inputs -/

/-- A full frame with arbitrary stored CRC field parses into `frame`. -/
theorem readFrame_at {log : List Nat} {pos o c : Nat} {p rest : List Nat}
    (hdrop : log.drop pos =
      toBytesBE 8 o ++ (toBytesBE 4 p.length ++ (toBytesBE 4 c ++ (p ++ rest))))
    (hp : p.length < 2 ^ 31) :
    readFrame log pos = .frame (o % 2 ^ 64) p.length (c % 2 ^ 32) p := by
  obtain ⟨f1, f2, f3, f4, f5⟩ := frame_fields' hdrop
  have e2 : fromBytesBE ((log.drop (pos + 8)).take 4) = p.length := by
    rw [f2, Nat.mod_eq_of_lt (lt_trans hp (by norm_num))]
  simp only [readFrame, f1, e2, f3, f4]
  have hb1 : ¬(log.length ≤ pos) := by omega
  have hb2 : ¬(log.length < pos + 8) := by omega
  have hb3 : ¬(log.length = pos + 8) := by omega
  have hb4 : ¬(log.length < pos + 12) := by omega
  have hb5 : ¬(log.length = pos + 12) := by omega
  have hb6 : ¬(log.length < pos + 16) := by omega
  have hb7 : ¬(2 ^ 31 ≤ p.length) := by omega
  have hb8 : ¬(log.length = pos + 16 ∧ 0 < p.length) := by omega
  have hb9 : ¬(log.length < pos + 16 + p.length) := by omega
  rw [if_neg hb1, if_neg hb2, if_neg hb3, if_neg hb4, if_neg hb5, if_neg hb6, if_neg hb7,
      if_neg hb8, if_neg hb9]

/-- A record written by `Append` parses into `frame` with matching CRC. -/
theorem readFrame_record {log : List Nat} {pos o : Nat} {p rest : List Nat}
    (hdrop : log.drop pos = encRecord o p ++ rest) (hp : p.length < 2 ^ 31) :
    readFrame log pos = .frame (o % 2 ^ 64) p.length (crc32 p) p := by
  rw [encRecord_decomp] at hdrop
  rw [readFrame_at hdrop hp, Nat.mod_eq_of_lt (crc32_lt p)]

theorem readFrame_eof {log : List Nat} {pos : Nat} (h : log.length ≤ pos) :
    readFrame log pos = .eof := by
  simp only [readFrame]
  rw [if_pos h]

/-- Fewer than 16 bytes left (but at least one): some header read fails. -/
theorem readFrame_short {log : List Nat} {pos : Nat}
    (h1 : pos < log.length) (h2 : log.length < pos + 16) :
    ∃ msg, readFrame log pos = .ioErr msg := by
  simp only [readFrame]
  by_cases c2 : log.length < pos + 8
  · exact ⟨_, by rw [if_neg (by omega), if_pos c2]⟩
  · by_cases c3 : log.length = pos + 8
    · exact ⟨_, by rw [if_neg (by omega), if_neg c2, if_pos c3]⟩
    · by_cases c4 : log.length < pos + 12
      · exact ⟨_, by rw [if_neg (by omega), if_neg c2, if_neg c3, if_pos c4]⟩
      · by_cases c5 : log.length = pos + 12
        · exact ⟨_, by rw [if_neg (by omega), if_neg c2, if_neg c3, if_neg c4, if_pos c5]⟩
        · exact ⟨_, by rw [if_neg (by omega), if_neg c2, if_neg c3, if_neg c4, if_neg c5,
            if_pos (by omega)]⟩

/-- A parsed frame lies entirely inside the log. -/
theorem readFrame_bounds {log : List Nat} {pos off len crc : Nat} {payload : List Nat}
    (h : readFrame log pos = .frame off len crc payload) :
    pos + 16 + len ≤ log.length := by
  simp only [readFrame] at h
  by_cases c1 : log.length ≤ pos
  · rw [if_pos c1] at h; cases h
  · rw [if_neg c1] at h
    by_cases c2 : log.length < pos + 8
    · rw [if_pos c2] at h; cases h
    · rw [if_neg c2] at h
      by_cases c3 : log.length = pos + 8
      · rw [if_pos c3] at h; cases h
      · rw [if_neg c3] at h
        by_cases c4 : log.length < pos + 12
        · rw [if_pos c4] at h; cases h
        · rw [if_neg c4] at h
          by_cases c5 : log.length = pos + 12
          · rw [if_pos c5] at h; cases h
          · rw [if_neg c5] at h
            by_cases c6 : log.length < pos + 16
            · rw [if_pos c6] at h; cases h
            · rw [if_neg c6] at h
              by_cases c7 : 2 ^ 31 ≤ fromBytesBE ((log.drop (pos + 8)).take 4)
              · rw [if_pos c7] at h; cases h
              · rw [if_neg c7] at h
                by_cases c8 : log.length = pos + 16 ∧
                    0 < fromBytesBE ((log.drop (pos + 8)).take 4)
                · rw [if_pos c8] at h; cases h
                · rw [if_neg c8] at h
                  by_cases c9 : log.length < pos + 16 + fromBytesBE ((log.drop (pos + 8)).take 4)
                  · rw [if_pos c9] at h; cases h
                  · rw [if_neg c9] at h
                    cases h
                    omega

/-! ### Fuel irrelevance of the scan loops -/

theorem recoverScanF_fuel :
    ∀ (fuel1 : Nat) {fuel2 log pos next}, log.length - pos < fuel1 → log.length - pos < fuel2 →
      recoverScanF fuel1 log pos next = recoverScanF fuel2 log pos next := by
  intro fuel1
  induction fuel1 with
  | zero => intro fuel2 log pos next h1 h2; omega
  | succ a ih =>
      intro fuel2 log pos next h1 h2
      cases fuel2 with
      | zero => omega
      | succ b =>
          simp only [recoverScanF]
          cases hread : readFrame log pos with
          | eof => rfl
          | ioErr msg => rfl
          | negLen => rfl
          | frame off len crc payload =>
              have hb := readFrame_bounds hread
              dsimp only
              by_cases hcrc : crc ≠ crc32 payload
              · rw [if_pos hcrc, if_pos hcrc]
              · rw [if_neg hcrc, if_neg hcrc]
                exact ih (by omega) (by omega)

theorem readScanF_fuel :
    ∀ (fuel1 : Nat) {fuel2 log pos target}, log.length - pos < fuel1 → log.length - pos < fuel2 →
      readScanF fuel1 log pos target = readScanF fuel2 log pos target := by
  intro fuel1
  induction fuel1 with
  | zero => intro fuel2 log pos target h1 h2; omega
  | succ a ih =>
      intro fuel2 log pos target h1 h2
      cases fuel2 with
      | zero => omega
      | succ b =>
          simp only [readScanF]
          cases hread : readFrame log pos with
          | eof => rfl
          | ioErr msg => rfl
          | negLen => rfl
          | frame off len crc payload =>
              have hb := readFrame_bounds hread
              dsimp only
              by_cases hoff : off = target
              · rw [if_pos hoff, if_pos hoff]
              · rw [if_neg hoff, if_neg hoff]
                by_cases hlt : target < off
                · rw [if_pos hlt, if_pos hlt]
                · rw [if_neg hlt, if_neg hlt]
                  exact ih (by omega) (by omega)

theorem recoverScanF_to_canonical {fuel : Nat} {log : List Nat} {pos next : Nat}
    (h : log.length - pos < fuel) :
    recoverScanF fuel log pos next = recoverScan log pos next :=
  recoverScanF_fuel fuel h (by omega)

theorem readScanF_to_canonical {fuel : Nat} {log : List Nat} {pos target : Nat}
    (h : log.length - pos < fuel) :
    readScanF fuel log pos target = readScan log pos target :=
  readScanF_fuel fuel h (by omega)

/-! ### One scan step over a frame -/

theorem recoverScanF_frame {fuel : Nat} {log : List Nat} {pos next o : Nat} {p rest : List Nat}
    (hdrop : log.drop pos = encRecord o p ++ rest) (hp : p.length < 2 ^ 31) :
    recoverScanF (fuel + 1) log pos next =
      recoverScanF fuel log (pos + 16 + p.length) (o % 2 ^ 64 + 1) := by
  simp only [recoverScanF, readFrame_record hdrop hp]
  rw [if_neg (by simp)]

theorem readScanF_frame {fuel : Nat} {log : List Nat} {pos target o : Nat} {p rest : List Nat}
    (hdrop : log.drop pos = encRecord o p ++ rest) (hp : p.length < 2 ^ 31) (ho : o < 2 ^ 64) :
    readScanF (fuel + 1) log pos target =
      if o = target then .ok ⟨o, p⟩
      else if target < o then .err ("offset " ++ toString target ++ " not found")
      else readScanF fuel log (pos + 16 + p.length) target := by
  simp only [readScanF, readFrame_record hdrop hp, Nat.mod_eq_of_lt ho]

/-- A frame whose stored CRC disagrees with the CRC of its payload makes
recovery truncate the file at the frame start and stop. -/
theorem recoverScanF_bad_crc {fuel : Nat} {log : List Nat} {pos next o c : Nat} {p rest : List Nat}
    (hdrop : log.drop pos =
      toBytesBE 8 o ++ (toBytesBE 4 p.length ++ (toBytesBE 4 c ++ (p ++ rest))))
    (hp : p.length < 2 ^ 31) (hc : c < 2 ^ 32) (hne : c ≠ crc32 p) :
    recoverScanF (fuel + 1) log pos next = .ok next (log.take pos) := by
  simp only [recoverScanF, readFrame_at hdrop hp, Nat.mod_eq_of_lt hc]
  rw [if_pos hne]

/-! ### Scanning across a sequence of valid records -/

/-- After one frame, the remaining suffix starts `16 + p.length` bytes later. -/
theorem drop_after_frame {log : List Nat} {pos o : Nat} {p tl : List Nat}
    (hdrop : log.drop pos = encRecord o p ++ tl) :
    log.drop (pos + 16 + p.length) = tl := by
  have h1 : pos + 16 + p.length = pos + (16 + p.length) := by omega
  rw [h1, ← List.drop_drop, hdrop, List.drop_left' (encRecord_length o p)]

/-- Recovery consumes a prefix of valid records, advancing `next` past them. -/
theorem recoverScan_frames :
    ∀ (ps : List (List Nat)) {b : Nat}, (∀ p ∈ ps, p.length < 2 ^ 31) → b + ps.length ≤ 2 ^ 64 →
      ∀ {log : List Nat} {pos : Nat} (rest : List Nat) (next : Nat),
        log.drop pos = frames b ps ++ rest →
        recoverScan log pos next =
          recoverScan log (pos + framesLen ps)
            (if ps.length = 0 then next else b + ps.length) := by
  intro ps
  induction ps with
  | nil =>
      intro b hp hb log pos rest next hdrop
      simp [framesLen]
  | cons p ps ih =>
      intro b hp hb log pos rest next hdrop
      rw [frames, List.append_assoc] at hdrop
      have hplt : p.length < 2 ^ 31 := hp p (by simp)
      have hb0 : b < 2 ^ 64 := by
        simp only [List.length_cons] at hb
        omega
      have f5 := (frame_fields hdrop).2.2.2.2
      show recoverScanF (log.length + 1) log pos next = _
      rw [recoverScanF_frame hdrop hplt, Nat.mod_eq_of_lt hb0,
        recoverScanF_to_canonical (by omega)]
      have hd2 : log.drop (pos + 16 + p.length) = frames (b + 1) ps ++ rest :=
        drop_after_frame hdrop
      rw [ih (fun q hq => hp q (by simp [hq]))
        (by simp only [List.length_cons] at hb; omega) rest (b + 1) hd2]
      have hnext : (if ps.length = 0 then b + 1 else b + 1 + ps.length) = b + (p :: ps).length := by
        by_cases h : ps.length = 0
        · simp [h]
        · simp only [if_neg h, List.length_cons]
          omega
      have hpos2 : pos + 16 + p.length + framesLen ps = pos + framesLen (p :: ps) := by
        simp only [framesLen]
        omega
      rw [hnext, hpos2, if_neg (by simp)]

/-- Scanning from the start of record `r` in a log that ends at the last
record finds every later record. -/
theorem readScan_suffix :
    ∀ (qs : List (List Nat)) {o : Nat}, (∀ p ∈ qs, p.length < 2 ^ 31) → o + qs.length ≤ 2 ^ 64 →
      ∀ {log : List Nat} {pos t : Nat},
        log.drop pos = frames o qs → o ≤ t → t < o + qs.length →
        readScan log pos t = .ok ⟨t, qs.getD (t - o) []⟩ := by
  intro qs
  induction qs with
  | nil =>
      intro o hp hb log pos t hdrop hle hlt
      simp at hlt
      omega
  | cons p qs ih =>
      intro o hp hb log pos t hdrop hle hlt
      rw [frames] at hdrop
      have hplt : p.length < 2 ^ 31 := hp p (by simp)
      have ho : o < 2 ^ 64 := by
        simp only [List.length_cons] at hb
        omega
      have f5 := (frame_fields hdrop).2.2.2.2
      show readScanF (log.length + 1) log pos t = _
      rw [readScanF_frame hdrop hplt ho]
      by_cases heq : o = t
      · rw [if_pos heq]
        subst heq
        simp
      · rw [if_neg heq, if_neg (by omega), readScanF_to_canonical (by omega)]
        have hd2 : log.drop (pos + 16 + p.length) = frames (o + 1) qs :=
          by simpa using drop_after_frame hdrop
        rw [ih (fun q hq => hp q (by simp [hq]))
          (by simp only [List.length_cons] at hb; omega) hd2 (by omega)
          (by simp only [List.length_cons] at hlt; omega)]
        have hidx : t - o = (t - (o + 1)) + 1 := by omega
        rw [hidx, List.getD_cons_succ]

/-! ### `sort.Search` correctness for monotone predicates -/

theorem searchLoop_spec (pred : Nat → Bool) :
    ∀ (fuel i j : Nat), j - i < fuel → i ≤ j →
      (∀ a b, i ≤ a → a ≤ b → b < j → pred a = true → pred b = true) →
      i ≤ searchLoop pred fuel i j ∧ searchLoop pred fuel i j ≤ j ∧
      (∀ k, i ≤ k → k < searchLoop pred fuel i j → pred k = false) ∧
      (∀ k, searchLoop pred fuel i j ≤ k → k < j → pred k = true) := by
  intro fuel
  induction fuel with
  | zero =>
      intro i j hf
      omega
  | succ f ih =>
      intro i j hf hij hmono
      simp only [searchLoop]
      by_cases hlt : i < j
      · rw [if_pos hlt]
        have hm1 : i ≤ (i + j) / 2 := by omega
        have hm2 : (i + j) / 2 < j := by omega
        by_cases hpm : pred ((i + j) / 2)
        · rw [if_pos hpm]
          obtain ⟨r1, r2, r3, r4⟩ := ih i ((i + j) / 2) (by omega) hm1
            (fun a b ha hab hb hp => hmono a b ha hab (by omega) hp)
          refine ⟨r1, by omega, r3, fun k hk1 hk2 => ?_⟩
          by_cases hkm : k < (i + j) / 2
          · exact r4 k hk1 hkm
          · exact hmono ((i + j) / 2) k hm1 (by omega) hk2 hpm
        · rw [if_neg hpm]
          obtain ⟨r1, r2, r3, r4⟩ := ih ((i + j) / 2 + 1) j (by omega) (by omega)
            (fun a b ha hab hb hp => hmono a b (by omega) hab hb hp)
          refine ⟨by omega, r2, fun k hk1 hk2 => ?_, r4⟩
          by_cases hkm : (i + j) / 2 + 1 ≤ k
          · exact r3 k hkm hk2
          · cases hpk : pred k with
            | false => rfl
            | true =>
                exact absurd (hmono k ((i + j) / 2) hk1 (by omega) hm2 hpk) (by simp [hpm])
      · rw [if_neg hlt]
        exact ⟨Nat.le_refl _, hij, fun k hk1 hk2 => by omega,
          fun k hk1 hk2 => by omega⟩

theorem sortSearch_spec (n : Nat) (pred : Nat → Bool)
    (hmono : ∀ a b, a ≤ b → b < n → pred a = true → pred b = true) :
    sortSearch n pred ≤ n ∧
    (∀ k, k < sortSearch n pred → pred k = false) ∧
    (∀ k, sortSearch n pred ≤ k → k < n → pred k = true) := by
  have h := searchLoop_spec pred (n + 1) 0 n (by omega) (by omega)
    (fun a b _ hab hb hp => hmono a b hab hb hp)
  exact ⟨h.2.1, fun k hk => h.2.2.1 k (by omega) hk, h.2.2.2⟩

/-! ### Segment invariant -/

/-- What the in-memory index entries of a segment holding payloads `ps` look
like: entry `(rel, pos)` points at the start of record `rel`, relative
offsets strictly increase, and indexed positions are at least
`indexInterval` apart. -/
structure IdxProps (ps : List (List Nat)) (es : List IndexEntry) : Prop where
  nonempty : ps ≠ [] → es ≠ []
  mem : ∀ e ∈ es, e.relativeOffset < ps.length ∧ e.position = startPos ps e.relativeOffset
  sorted : List.Pairwise (fun a b => a.relativeOffset < b.relativeOffset) es
  gaps : List.Pairwise (fun a b => a.position + 4096 ≤ b.position) es

/-- The state of a segment that holds exactly the records `ps` (written by
fault-free appends at consecutive offsets from its base). -/
structure SegRel (s : Segment) (ps : List (List Nat)) : Prop where
  log_eq : s.log = frames s.baseOffset ps
  size_eq : s.size = framesLen ps
  next_eq : s.nextOffset = s.baseOffset + ps.length
  idx : IdxProps ps s.indexEntries

/-- Roll discipline: every record was appended while the log was still below
the rolling threshold (`Partition.Append` rolls before appending otherwise). -/
def Disc (ps : List (List Nat)) : Prop :=
  ∀ k, k < ps.length → startPos ps k < segmentMaxBytes

theorem Disc.length_le {ps : List (List Nat)} (h : Disc ps) : ps.length ≤ 2 ^ 23 := by
  cases hps : ps.length with
  | zero => omega
  | succ n =>
      have h1 := h n (by omega)
      have h2 := startPos_ge ps n (by omega)
      simp only [segmentMaxBytes] at h1
      omega

theorem segRel_fresh (b : Nat) : SegRel (freshSegment b) [] :=
  ⟨rfl, rfl, rfl, ⟨fun h => absurd rfl h, fun _ h => absurd h (List.not_mem_nil _),
    List.Pairwise.nil, List.Pairwise.nil⟩⟩

theorem disc_nil : Disc [] := fun k hk => by simp at hk

/-- The index-entry condition checked by `Append` before writing an entry. -/
def needIndex (s : Segment) : Bool :=
  match s.indexEntries.getLast? with
  | none => true
  | some last => decide (4096 ≤ s.log.length - last.position)

/-- What one fault-free `Append` does to a segment, field by field. -/
theorem appendOk_fields (s : Segment) (e : LogEntry) :
    s.appendOk e =
      { baseOffset := s.baseOffset,
        log := s.log ++ encRecord s.nextOffset e.payload,
        indexFile :=
          if needIndex s then
            s.indexFile ++ toBytesBE 4 ((s.nextOffset - s.baseOffset) % 2 ^ 32) ++
              toBytesBE 4 (s.log.length % 2 ^ 32)
          else s.indexFile,
        size := s.log.length + 8 + 4 + 4 + e.payload.length,
        nextOffset := s.nextOffset + 1,
        indexEntries :=
          if needIndex s then
            s.indexEntries ++ [⟨(s.nextOffset - s.baseOffset) % 2 ^ 32, s.log.length % 2 ^ 32⟩]
          else s.indexEntries } ∧
    (s.append e noFail).2 = none := by
  cases hgl : s.indexEntries.getLast? with
  | none =>
      constructor
      · simp [Segment.appendOk, Segment.append, noFail, needIndex, hgl, encRecord,
          List.append_assoc]
      · simp [Segment.append, noFail, hgl]
  | some last =>
      by_cases hc : 4096 ≤ s.log.length - last.position
      · constructor
        · simp [Segment.appendOk, Segment.append, noFail, needIndex, hgl, hc, encRecord,
            List.append_assoc]
        · simp [Segment.append, noFail, hgl, hc]
      · constructor
        · simp [Segment.appendOk, Segment.append, noFail, needIndex, hgl, hc, encRecord,
            List.append_assoc]
        · simp [Segment.append, noFail, hgl, hc]

/-- `Segment.Append` never reads the `Offset` field of the entry it is
given: it overwrites it with `nextOffset` first. -/
theorem append_offset_irrelevant (s : Segment) (e : LogEntry) (wfail : Nat → Bool) :
    s.append e wfail = s.append ⟨0, e.payload⟩ wfail := rfl

theorem pairwise_getLast {R : IndexEntry → IndexEntry → Prop} {es : List IndexEntry}
    {last : IndexEntry} (hp : List.Pairwise R es) (hgl : es.getLast? = some last) :
    ∀ a ∈ es, a = last ∨ R a last := by
  intro a ha
  have hne : es ≠ [] := by
    intro h
    subst h
    simp at hgl
  have hdecomp := List.dropLast_append_getLast hne
  have hlast : es.getLast hne = last := by
    have := List.getLast?_eq_getLast es hne
    rw [hgl] at this
    exact (Option.some.injEq _ _).mp this.symm
  rw [← hdecomp, hlast] at ha hp
  rcases List.mem_append.mp ha with h1 | h1
  · right
    exact (List.pairwise_append.mp hp).2.2 a h1 last (by simp)
  · left
    simpa using h1

theorem startPos_length (ps : List (List Nat)) : startPos ps ps.length = framesLen ps := by
  simp [startPos, List.take_length]

/-- Appending to a well-formed segment below the rolling threshold preserves
the invariant, extending the record list by the new payload. -/
theorem segStep {s : Segment} {ps : List (List Nat)} (e : LogEntry)
    (h : SegRel s ps) (hd : Disc ps) (hsz : s.size < segmentMaxBytes) :
    SegRel (s.appendOk e) (ps ++ [e.payload]) ∧ Disc (ps ++ [e.payload]) := by
  have hf := (appendOk_fields s e).1
  have hlog : s.log.length = framesLen ps := by rw [h.log_eq, frames_length]
  have hsize : framesLen ps < segmentMaxBytes := by rw [← h.size_eq]; exact hsz
  have hsize27 : framesLen ps < 2 ^ 27 := by
    simpa [segmentMaxBytes] using hsize
  have hcount : ps.length ≤ 2 ^ 23 := hd.length_le
  have hdisc2 : Disc (ps ++ [e.payload]) := by
    intro k hk
    simp only [List.length_append, List.length_singleton] at hk
    rw [startPos_snoc ps e.payload k (by omega)]
    rcases Nat.lt_or_ge k ps.length with hlt | hge
    · exact hd k hlt
    · have hkeq : k = ps.length := by omega
      subst hkeq
      rw [startPos_length]
      exact hsize
  refine ⟨?_, hdisc2⟩
  have holdmem : ∀ a ∈ s.indexEntries, a.relativeOffset < (ps ++ [e.payload]).length ∧
      a.position = startPos (ps ++ [e.payload]) a.relativeOffset := by
    intro a ha
    obtain ⟨h1, h2⟩ := h.idx.mem a ha
    refine ⟨by simp; omega, ?_⟩
    rw [startPos_snoc ps e.payload _ (by omega)]
    exact h2
  have hrel : (s.nextOffset - s.baseOffset) % 2 ^ 32 = ps.length := by
    rw [h.next_eq]
    have : s.baseOffset + ps.length - s.baseOffset = ps.length := by omega
    rw [this, Nat.mod_eq_of_lt (by omega)]
  have hpos : s.log.length % 2 ^ 32 = framesLen ps := by
    rw [hlog, Nat.mod_eq_of_lt (by omega)]
  rw [hf]
  refine ⟨?_, ?_, ?_, ?_⟩
  · show s.log ++ encRecord s.nextOffset e.payload = frames s.baseOffset (ps ++ [e.payload])
    rw [h.log_eq, h.next_eq, frames_append]
    simp [frames]
  · show s.log.length + 8 + 4 + 4 + e.payload.length = framesLen (ps ++ [e.payload])
    rw [hlog, framesLen_append]
    simp [framesLen]
    omega
  · show s.nextOffset + 1 = s.baseOffset + (ps ++ [e.payload]).length
    rw [h.next_eq]
    simp
    omega
  · show IdxProps (ps ++ [e.payload])
      (if needIndex s then
        s.indexEntries ++ [⟨(s.nextOffset - s.baseOffset) % 2 ^ 32, s.log.length % 2 ^ 32⟩]
       else s.indexEntries)
    by_cases hni : needIndex s = true
    · rw [if_pos hni, hrel, hpos]
      have hcross : ∀ a ∈ s.indexEntries, a.position + 4096 ≤ framesLen ps := by
        intro a ha
        unfold needIndex at hni
        cases hgl : s.indexEntries.getLast? with
        | none =>
            exact absurd ha (by simp [List.getLast?_eq_none_iff.mp hgl])
        | some last =>
            rw [hgl] at hni
            simp only [decide_eq_true_eq] at hni
            have hlastmem := List.mem_of_mem_getLast? hgl
            obtain ⟨hl1, hl2⟩ := h.idx.mem last hlastmem
            have hlastpos : last.position + 16 ≤ framesLen ps := by
              rw [hl2]
              exact startPos_add_le ps _ hl1
            have hlast4096 : last.position + 4096 ≤ framesLen ps := by
              rw [hlog] at hni
              omega
            rcases pairwise_getLast h.idx.gaps hgl a ha with heq | hle
            · rw [heq]; exact hlast4096
            · omega
      refine ⟨by simp, ?_, ?_, ?_⟩
      · intro a ha
        rcases List.mem_append.mp ha with h1 | h1
        · exact holdmem a h1
        · simp only [List.mem_singleton] at h1
          subst h1
          refine ⟨by simp, ?_⟩
          show framesLen ps = startPos (ps ++ [e.payload]) ps.length
          rw [startPos_snoc_last]
      · rw [List.pairwise_append]
        refine ⟨h.idx.sorted, by simp, ?_⟩
        intro a ha b hb
        simp only [List.mem_singleton] at hb
        subst hb
        exact (h.idx.mem a ha).1
      · rw [List.pairwise_append]
        refine ⟨h.idx.gaps, by simp, ?_⟩
        intro a ha b hb
        simp only [List.mem_singleton] at hb
        subst hb
        exact hcross a ha
    · rw [if_neg hni]
      have hglsome : ∃ last, s.indexEntries.getLast? = some last := by
        unfold needIndex at hni
        cases hgl : s.indexEntries.getLast? with
        | none => rw [hgl] at hni; simp at hni
        | some last => exact ⟨last, rfl⟩
      obtain ⟨last, hgl⟩ := hglsome
      refine ⟨?_, holdmem, h.idx.sorted, h.idx.gaps⟩
      intro _
      intro hes
      rw [hes] at hgl
      simp at hgl

theorem appendOk_base (s : Segment) (e : LogEntry) :
    (s.appendOk e).baseOffset = s.baseOffset := by
  rw [(appendOk_fields s e).1]

/-! ### Partition invariant -/

/-- The segments of a partition, chained from base `b`, hold exactly the
appended payloads `tr` in order. -/
def segsRel : Nat → List Segment → List (List Nat) → Prop
  | _, [], tr => tr = []
  | b, s :: rest, tr =>
      ∃ ps tr2, tr = ps ++ tr2 ∧ s.baseOffset = b ∧ SegRel s ps ∧ Disc ps ∧
        segsRel s.nextOffset rest tr2

def PartRel (p : Partition) (tr : List (List Nat)) : Prop :=
  p.id = 0 ∧ p.segments ≠ [] ∧ segsRel 0 p.segments tr

/-- Rolling: a new well-formed segment based at the old active segment's
next offset goes to the end of the chain. -/
theorem segsRel_snoc :
    ∀ {ss : List Segment} {b : Nat} {tr : List (List Nat)} {lastSeg s2 : Segment}
      {ps2 : List (List Nat)},
      segsRel b ss tr → ss.getLast? = some lastSeg →
      s2.baseOffset = lastSeg.nextOffset → SegRel s2 ps2 → Disc ps2 →
      segsRel b (ss ++ [s2]) (tr ++ ps2) := by
  intro ss
  induction ss with
  | nil =>
      intro b tr lastSeg s2 ps2 _ hgl
      simp at hgl
  | cons s ss ih =>
      intro b tr lastSeg s2 ps2 hrel hgl hbase hs2 hd2
      obtain ⟨ps, tr2, htr, hb, hsr, hdisc, hrest⟩ := hrel
      cases ss with
      | nil =>
          have htr2 : tr2 = [] := hrest
          have hlast : s = lastSeg := by simpa using hgl
          subst hlast
          subst htr2
          refine ⟨ps, ps2, by rw [htr]; simp, hb, hsr, hdisc, ?_⟩
          exact ⟨ps2, [], by simp, hbase, hs2, hd2, rfl⟩
      | cons s1 ss1 =>
          refine ⟨ps, tr2 ++ ps2, by rw [htr, List.append_assoc], hb, hsr, hdisc, ?_⟩
          exact ih hrest (by rw [List.getLast?_cons_cons] at hgl; exact hgl) hbase hs2 hd2

/-- Appending to the active (= last) segment: the chain is preserved with the
last segment replaced and the new payload recorded. -/
theorem segsRel_updateLast :
    ∀ {ss : List Segment} {b : Nat} {tr : List (List Nat)} {act s2 : Segment} {x : List Nat},
      segsRel b ss tr → ss.getLast? = some act →
      (∀ ps, SegRel act ps → Disc ps →
        SegRel s2 (ps ++ [x]) ∧ Disc (ps ++ [x]) ∧ s2.baseOffset = act.baseOffset) →
      segsRel b (ss.dropLast ++ [s2]) (tr ++ [x]) := by
  intro ss
  induction ss with
  | nil =>
      intro b tr act s2 x _ hgl
      simp at hgl
  | cons s ss ih =>
      intro b tr act s2 x hrel hgl hstep
      obtain ⟨ps, tr2, htr, hb, hsr, hdisc, hrest⟩ := hrel
      cases ss with
      | nil =>
          have htr2 : tr2 = [] := hrest
          have hlast : s = act := by simpa using hgl
          subst hlast
          subst htr2
          obtain ⟨hs2rel, hs2disc, hs2base⟩ := hstep ps hsr hdisc
          simp only [List.dropLast_single, List.nil_append]
          exact ⟨ps ++ [x], [], by rw [htr]; simp, by rw [hs2base, hb], hs2rel, hs2disc, rfl⟩
      | cons s1 ss1 =>
          simp only [List.dropLast_cons₂, List.cons_append]
          refine ⟨ps, tr2 ++ [x], by rw [htr, List.append_assoc], hb, hsr, hdisc, ?_⟩
          exact ih hrest (by rw [List.getLast?_cons_cons] at hgl; exact hgl) hstep

/-- What `Partition.Append` computes, given the active segment. -/
theorem partition_append_eq {p : Partition} {active : Segment} (x : List Nat)
    (hgl : p.segments.getLast? = some active) :
    p.append x =
      if segmentMaxBytes ≤ active.size then
        ({ p with segments :=
            p.segments ++ [(freshSegment active.nextOffset).appendOk ⟨0, x⟩] },
         Except.ok 0)
      else
        ({ p with segments := p.segments.dropLast ++ [active.appendOk ⟨0, x⟩] },
         Except.ok 0) := by
  by_cases hroll : segmentMaxBytes ≤ active.size
  · rw [if_pos hroll]
    have hnone := (appendOk_fields (freshSegment active.nextOffset) ⟨0, x⟩).2
    simp only [Partition.append, hgl, if_pos hroll, hnone, Segment.appendOk,
      List.dropLast_concat]
  · rw [if_neg hroll]
    have hnone := (appendOk_fields active ⟨0, x⟩).2
    simp only [Partition.append, hgl, if_neg hroll, hnone, Segment.appendOk]

theorem partStep {p : Partition} {tr : List (List Nat)} (h : PartRel p tr) (x : List Nat) :
    PartRel (p.append x).1 (tr ++ [x]) := by
  obtain ⟨hid, hne, hrel⟩ := h
  cases hgl : p.segments.getLast? with
  | none => exact absurd (List.getLast?_eq_none_iff.mp hgl) hne
  | some active =>
      rw [partition_append_eq x hgl]
      by_cases hroll : segmentMaxBytes ≤ active.size
      · rw [if_pos hroll]
        refine ⟨hid, by simp, ?_⟩
        have hfresh0 : (freshSegment active.nextOffset).size < segmentMaxBytes := by
          simp [freshSegment, segmentMaxBytes]
        obtain ⟨hs2rel, hs2disc⟩ :=
          segStep (⟨0, x⟩ : LogEntry) (segRel_fresh active.nextOffset) disc_nil hfresh0
        simp only [List.nil_append] at hs2rel hs2disc
        exact segsRel_snoc hrel hgl
          (by rw [appendOk_base]; rfl) hs2rel hs2disc
      · rw [if_neg hroll]
        refine ⟨hid, by simp, ?_⟩
        refine segsRel_updateLast hrel hgl (fun ps hsr hdisc => ?_)
        obtain ⟨h1, h2⟩ := segStep (⟨0, x⟩ : LogEntry) hsr hdisc (by omega)
        exact ⟨h1, h2, appendOk_base _ _⟩

/-- Every partition obtained from a fresh partition by appends satisfies the
invariant with exactly the appended payloads. -/
theorem replay_rel (tr : List (List Nat)) : PartRel (replayPart tr) tr := by
  induction tr using List.reverseRecOn with
  | nil =>
      refine ⟨rfl, by simp [Partition.fresh, replayPart], ?_⟩
      exact ⟨[], [], rfl, rfl, segRel_fresh 0, disc_nil, rfl⟩
  | append_singleton tr x ih =>
      have : replayPart (tr ++ [x]) = ((replayPart tr).append x).1 := by
        simp only [replayPart, List.foldl_concat]
        rfl
      rw [this]
      exact partStep ih x

/-! ### Facts extracted from the chain -/

theorem segsRel_next :
    ∀ {ss : List Segment} {b : Nat} {tr : List (List Nat)} {lastSeg : Segment},
      segsRel b ss tr → ss.getLast? = some lastSeg → lastSeg.nextOffset = b + tr.length := by
  intro ss
  induction ss with
  | nil =>
      intro b tr lastSeg _ hgl
      simp at hgl
  | cons s ss ih =>
      intro b tr lastSeg hrel hgl
      obtain ⟨ps, tr2, htr, hb, hsr, hdisc, hrest⟩ := hrel
      cases ss with
      | nil =>
          have htr2 : tr2 = [] := hrest
          subst htr2
          have hlast : s = lastSeg := by simpa using hgl
          subst hlast
          rw [hsr.next_eq, hb, htr]
          simp
      | cons s1 ss1 =>
          have h1 := ih hrest (by rw [List.getLast?_cons_cons] at hgl; exact hgl)
          rw [h1, hsr.next_eq, hb, htr]
          simp only [List.length_append]
          omega

theorem segsRel_mem :
    ∀ {ss : List Segment} {b : Nat} {tr : List (List Nat)},
      segsRel b ss tr → ∀ s ∈ ss, ∃ ps, SegRel s ps ∧ Disc ps := by
  intro ss
  induction ss with
  | nil =>
      intro b tr _ s hs
      simp at hs
  | cons s0 ss ih =>
      intro b tr hrel s hs
      obtain ⟨ps, tr2, htr, hb, hsr, hdisc, hrest⟩ := hrel
      rcases List.mem_cons.mp hs with heq | hmem
      · subst heq
        exact ⟨ps, hsr, hdisc⟩
      · exact ih hrest s hmem

theorem segsRel_lb :
    ∀ {ss : List Segment} {b : Nat} {tr : List (List Nat)},
      segsRel b ss tr → ∀ s ∈ ss, b ≤ s.baseOffset ∧ s.baseOffset ≤ s.nextOffset := by
  intro ss
  induction ss with
  | nil =>
      intro b tr _ s hs
      simp at hs
  | cons s0 ss ih =>
      intro b tr hrel s hs
      obtain ⟨ps, tr2, htr, hb, hsr, hdisc, hrest⟩ := hrel
      rcases List.mem_cons.mp hs with heq | hmem
      · subst heq
        rw [hb, hsr.next_eq]
        omega
      · have h1 := ih hrest s hmem
        have h2 : s0.baseOffset ≤ s0.nextOffset := by rw [hsr.next_eq]; omega
        omega

theorem segsRel_chain :
    ∀ {ss : List Segment} {b : Nat} {tr : List (List Nat)},
      segsRel b ss tr → List.Chain' (fun s1 s2 => s2.baseOffset = s1.nextOffset) ss := by
  intro ss
  induction ss with
  | nil => intro b tr _; exact List.chain'_nil
  | cons s0 ss ih =>
      intro b tr hrel
      obtain ⟨ps, tr2, htr, hb, hsr, hdisc, hrest⟩ := hrel
      cases ss with
      | nil => simp
      | cons s1 ss1 =>
          have hrest2 := hrest
          obtain ⟨ps1, tr3, htr1, hb1, hsr1, hdisc1, hrest1⟩ := hrest2
          exact List.Chain'.cons hb1 (ih hrest)

theorem segsRel_ordered :
    ∀ {ss : List Segment} {b : Nat} {tr : List (List Nat)},
      segsRel b ss tr → List.Pairwise (fun s1 s2 => s1.nextOffset ≤ s2.baseOffset) ss := by
  intro ss
  induction ss with
  | nil => intro b tr _; exact List.Pairwise.nil
  | cons s0 ss ih =>
      intro b tr hrel
      obtain ⟨ps, tr2, htr, hb, hsr, hdisc, hrest⟩ := hrel
      rw [List.pairwise_cons]
      exact ⟨fun s hs => (segsRel_lb hrest s hs).1, ih hrest⟩

theorem segsRel_union :
    ∀ {ss : List Segment} {b : Nat} {tr : List (List Nat)},
      segsRel b ss tr → ∀ o, b ≤ o →
        ((∃ s ∈ ss, s.baseOffset ≤ o ∧ o < s.nextOffset) ↔ o < b + tr.length) := by
  intro ss
  induction ss with
  | nil =>
      intro b tr hrel o hbo
      subst hrel
      simp
      omega
  | cons s0 ss ih =>
      intro b tr hrel o hbo
      obtain ⟨ps, tr2, htr, hb, hsr, hdisc, hrest⟩ := hrel
      have hnext : s0.nextOffset = b + ps.length := by rw [hsr.next_eq, hb]
      have hlen : tr.length = ps.length + tr2.length := by rw [htr]; simp
      constructor
      · rintro ⟨s, hs, hso1, hso2⟩
        rcases List.mem_cons.mp hs with heq | hmem
        · subst heq
          omega
        · have hlb := (segsRel_lb hrest s hmem).1
          have := (ih hrest o (by omega)).mp ⟨s, hmem, hso1, hso2⟩
          omega
      · intro ho
        by_cases hcase : o < s0.nextOffset
        · exact ⟨s0, by simp, by omega, hcase⟩
        · have := (ih hrest o (by omega)).mpr (by omega)
          obtain ⟨s, hmem, hs1, hs2⟩ := this
          exact ⟨s, by simp [hmem], hs1, hs2⟩

theorem replay_nextOffset (tr : List (List Nat)) : (replayPart tr).nextOffset = tr.length := by
  obtain ⟨hid, hne, hrel⟩ := replay_rel tr
  cases hgl : (replayPart tr).segments.getLast? with
  | none => exact absurd (List.getLast?_eq_none_iff.mp hgl) hne
  | some lastSeg =>
      have h1 := segsRel_next hrel hgl
      simp [Partition.nextOffset, hgl, h1]

/-! ### Read correctness on a well-formed segment -/

theorem getD_drop' {α : Type} (l : List α) (n m : Nat) (d : α) :
    (l.drop n).getD m d = l.getD (n + m) d := by
  rw [List.getD_eq_getElem?_getD, List.getD_eq_getElem?_getD, List.getElem?_drop]

/-- `findPosition` returns the start position of some record at or before the
target. -/
theorem findPosition_spec {s : Segment} {ps : List (List Nat)} (h : SegRel s ps) (hd : Disc ps)
    {t : Nat} (h1 : s.baseOffset ≤ t) (h2 : t - s.baseOffset < ps.length) :
    ∃ r, r ≤ t - s.baseOffset ∧ r ≤ ps.length ∧ s.findPosition t = startPos ps r := by
  have hcount : ps.length ≤ 2 ^ 23 := hd.length_le
  have hrel : (t - s.baseOffset) % 2 ^ 32 = t - s.baseOffset := Nat.mod_eq_of_lt (by omega)
  have hmono : ∀ a c : Nat, a ≤ c → c < s.indexEntries.length →
      decide ((t - s.baseOffset) % 2 ^ 32 <
        (s.indexEntries.getD a ⟨0, 0⟩).relativeOffset) = true →
      decide ((t - s.baseOffset) % 2 ^ 32 <
        (s.indexEntries.getD c ⟨0, 0⟩).relativeOffset) = true := by
    intro a c hac hc hpa
    simp only [decide_eq_true_eq] at hpa ⊢
    rcases Nat.eq_or_lt_of_le hac with heq | hlt
    · subst heq
      exact hpa
    · have ha : a < s.indexEntries.length := by omega
      have hsorted := List.pairwise_iff_get.mp h.idx.sorted ⟨a, ha⟩ ⟨c, hc⟩ hlt
      rw [List.getD_eq_get _ _ hc]
      rw [List.getD_eq_get _ _ ha] at hpa
      omega
  simp only [Segment.findPosition]
  obtain ⟨hle, hfalse, htrue⟩ := sortSearch_spec s.indexEntries.length
    (fun i => decide ((t - s.baseOffset) % 2 ^ 32 <
      (s.indexEntries.getD i ⟨0, 0⟩).relativeOffset)) hmono
  set I := sortSearch s.indexEntries.length
    (fun i => decide ((t - s.baseOffset) % 2 ^ 32 <
      (s.indexEntries.getD i ⟨0, 0⟩).relativeOffset)) with hI
  by_cases hidx : I = 0
  · refine ⟨0, by omega, by omega, ?_⟩
    rw [hidx, if_pos rfl, startPos_zero]
  · have hidx1 : I - 1 < s.indexEntries.length := by omega
    have hmem : s.indexEntries.getD (I - 1) ⟨0, 0⟩ ∈ s.indexEntries := by
      rw [List.getD_eq_get _ _ hidx1]
      exact List.get_mem _ _ _
    obtain ⟨hm1, hm2⟩ := h.idx.mem _ hmem
    have hpf := hfalse (I - 1) (by omega)
    simp only [decide_eq_false_iff_not, not_lt] at hpf
    refine ⟨(s.indexEntries.getD (I - 1) ⟨0, 0⟩).relativeOffset, by omega, by omega, ?_⟩
    rw [if_neg hidx, hm2]

/-- Reading any offset in range of a well-formed segment returns that record. -/
theorem SegRel.read_ok {s : Segment} {ps : List (List Nat)} (h : SegRel s ps) (hd : Disc ps)
    (hp : ∀ p ∈ ps, p.length < 2 ^ 31) (hb : s.baseOffset + ps.length ≤ 2 ^ 64)
    {t : Nat} (h1 : s.baseOffset ≤ t) (h2 : t < s.nextOffset) :
    s.read t = .ok ⟨t, ps.getD (t - s.baseOffset) []⟩ := by
  have hlen : t - s.baseOffset < ps.length := by
    have := h.next_eq
    omega
  obtain ⟨r, hr1, hr2, hfp⟩ := findPosition_spec h hd h1 hlen
  have hdrop : s.log.drop (startPos ps r) = frames (s.baseOffset + r) (ps.drop r) := by
    rw [h.log_eq]
    exact frames_drop _ _ _ hr2
  have hscan : readScan s.log (startPos ps r) t =
      .ok ⟨t, (ps.drop r).getD (t - (s.baseOffset + r)) []⟩ :=
    readScan_suffix (ps.drop r) (fun q hq => hp q (List.drop_subset _ _ hq))
      (by simp only [List.length_drop]; omega) hdrop (by omega)
      (by simp only [List.length_drop]; omega)
  have hgetd : (ps.drop r).getD (t - (s.baseOffset + r)) [] = ps.getD (t - s.baseOffset) [] := by
    rw [getD_drop']
    have : r + (t - (s.baseOffset + r)) = t - s.baseOffset := by omega
    rw [this]
  rw [hgetd] at hscan
  simp only [Segment.read, hfp]
  rw [if_neg (by omega)]
  exact hscan

/-- `Partition.Read`'s segment lookup finds the right segment and the read
succeeds, for every offset below the total record count. -/
theorem segsRel_find_read :
    ∀ {ss : List Segment} {b : Nat} {tr : List (List Nat)},
      segsRel b ss tr → (∀ p ∈ tr, p.length < 2 ^ 31) → b + tr.length ≤ 2 ^ 64 →
      ∀ t, b ≤ t → t < b + tr.length →
        ∃ s, ss.find? (fun s => decide (s.baseOffset ≤ t) && decide (t < s.nextOffset)) =
            some s ∧ s.read t = .ok ⟨t, tr.getD (t - b) []⟩ := by
  intro ss
  induction ss with
  | nil =>
      intro b tr hrel hp hb t ht1 ht2
      subst hrel
      simp at ht2
      omega
  | cons s0 ss ih =>
      intro b tr hrel hp hb t ht1 ht2
      obtain ⟨ps, tr2, htr, hbase, hsr, hdisc, hrest⟩ := hrel
      have hnext : s0.nextOffset = b + ps.length := by rw [hsr.next_eq, hbase]
      have hlen : tr.length = ps.length + tr2.length := by rw [htr]; simp
      by_cases hcase : t < s0.nextOffset
      · refine ⟨s0, ?_, ?_⟩
        · rw [List.find?_cons]
          have : (decide (s0.baseOffset ≤ t) && decide (t < s0.nextOffset)) = true := by
            simp only [Bool.and_eq_true, decide_eq_true_eq]
            omega
          rw [this]
        · have hread := hsr.read_ok hdisc (fun q hq => hp q (by rw [htr]; simp [hq]))
            (by rw [hbase]; omega) (by omega : s0.baseOffset ≤ t) hcase
          rw [hread, htr, hbase]
          congr 2
          rw [List.getD_append _ _ _ _ (by omega)]
      · obtain ⟨s, hfind, hread⟩ := ih hrest (fun q hq => hp q (by rw [htr]; simp [hq]))
          (by omega) t (by omega) (by omega)
        refine ⟨s, ?_, ?_⟩
        · rw [List.find?_cons]
          have : (decide (s0.baseOffset ≤ t) && decide (t < s0.nextOffset)) = false := by
            simp only [Bool.and_eq_false_iff, decide_eq_false_iff_not, not_lt]
            right
            omega
          rw [this]
          exact hfind
        · rw [hread, htr]
          congr 2
          rw [List.getD_append_right _ _ _ _ (by omega)]
          congr 1
          omega

/-- Every segment's range ends at or below the total record count, so the
lookup for the next offset finds nothing. -/
theorem segsRel_find_none :
    ∀ {ss : List Segment} {b : Nat} {tr : List (List Nat)},
      segsRel b ss tr → ∀ t, b + tr.length ≤ t →
        ss.find? (fun s => decide (s.baseOffset ≤ t) && decide (t < s.nextOffset)) = none := by
  intro ss
  induction ss with
  | nil => intro b tr _ t _; rfl
  | cons s0 ss ih =>
      intro b tr hrel t ht
      obtain ⟨ps, tr2, htr, hbase, hsr, hdisc, hrest⟩ := hrel
      have hnext : s0.nextOffset = b + ps.length := by rw [hsr.next_eq, hbase]
      have hlen : tr.length = ps.length + tr2.length := by rw [htr]; simp
      rw [List.find?_cons]
      have : (decide (s0.baseOffset ≤ t) && decide (t < s0.nextOffset)) = false := by
        simp only [Bool.and_eq_false_iff, decide_eq_false_iff_not, not_lt]
        right
        omega
      rw [this]
      exact ih hrest t (by omega)

/-! ### Index sparsity -/

theorem pairwise_pos_growth {es : List IndexEntry}
    (hg : List.Pairwise (fun a b => a.position + 4096 ≤ b.position) es) :
    ∀ k, k < es.length → 4096 * k ≤ (es.getD k ⟨0, 0⟩).position := by
  intro k
  induction k with
  | zero => intro _; omega
  | succ k ih =>
      intro hk
      have hk1 : k < es.length := by omega
      have h1 := ih hk1
      have hrel := List.pairwise_iff_get.mp hg ⟨k, hk1⟩ ⟨k + 1, hk⟩ (by simp)
      rw [List.getD_eq_get _ _ hk1] at h1
      rw [List.getD_eq_get _ _ hk]
      omega

theorem idx_count_bound {ps : List (List Nat)} {es : List IndexEntry}
    (hip : IdxProps ps es) : es.length ≤ (framesLen ps + 4095) / 4096 + 1 := by
  cases hlen : es.length with
  | zero => omega
  | succ n =>
      have hlast : n < es.length := by omega
      have h1 := pairwise_pos_growth hip.gaps n hlast
      have hmem : es.getD n ⟨0, 0⟩ ∈ es := by
        rw [List.getD_eq_get _ _ hlast]
        exact List.get_mem _ _ _
      obtain ⟨hm1, hm2⟩ := hip.mem _ hmem
      have h2 : (es.getD n ⟨0, 0⟩).position + 16 ≤ framesLen ps := by
        rw [hm2]
        exact startPos_add_le ps _ hm1
      have h3 : n ≤ (framesLen ps + 4095) / 4096 := by
        rw [Nat.le_div_iff_mul_le (by norm_num)]
        omega
      omega

/-! ### Recovery behaviour on specific log contents -/

theorem recoverScan_eof {log : List Nat} {pos next : Nat} (h : log.length ≤ pos) :
    recoverScan log pos next = .ok next log := by
  show recoverScanF (log.length + 1) log pos next = _
  simp only [recoverScanF, readFrame_eof h]

theorem recoverScan_short {log : List Nat} {pos : Nat} (next : Nat)
    (h1 : pos < log.length) (h2 : log.length < pos + 16) :
    ∃ msg, recoverScan log pos next = .fail msg := by
  obtain ⟨msg, hm⟩ := readFrame_short h1 h2
  refine ⟨msg, ?_⟩
  show recoverScanF (log.length + 1) log pos next = _
  simp only [recoverScanF, hm]

/-- Recovery of a log holding exactly the records `ps` finds them all. -/
theorem recoverScan_clean {ps : List (List Nat)} (hp : ∀ p ∈ ps, p.length < 2 ^ 31)
    (hb : ps.length ≤ 2 ^ 64) :
    recoverScan (frames 0 ps) 0 0 = .ok ps.length (frames 0 ps) := by
  have h1 := recoverScan_frames ps hp (show 0 + ps.length ≤ 2 ^ 64 by omega)
    [] 0 (show (frames 0 ps).drop 0 = frames 0 ps ++ [] by simp)
  rw [h1, recoverScan_eof (by simp)]
  by_cases hz : ps.length = 0
  · rw [if_pos hz, hz]
  · rw [if_neg hz, Nat.zero_add]

/-- Sixteen zero bytes appended to a valid log parse as one more valid record
with offset 0 and empty payload (the IEEE CRC-32 of no bytes is 0), so
recovery accepts it and leaves `next_offset = 1`.  Nothing is truncated. -/
theorem recoverScan_zeros16 {ps : List (List Nat)} (hp : ∀ p ∈ ps, p.length < 2 ^ 31)
    (hb : ps.length ≤ 2 ^ 64) :
    recoverScan (frames 0 ps ++ List.replicate 16 0) 0 0 =
      .ok 1 (frames 0 ps ++ List.replicate 16 0) := by
  have h1 := recoverScan_frames ps hp (show 0 + ps.length ≤ 2 ^ 64 by omega)
    (List.replicate 16 0) 0
    (show (frames 0 ps ++ List.replicate 16 0).drop 0 =
      frames 0 ps ++ List.replicate 16 0 by simp)
  rw [h1]
  set log := frames 0 ps ++ List.replicate 16 0 with hlog
  have hdrop : log.drop (0 + framesLen ps) = encRecord 0 [] ++ [] := by
    rw [hlog]
    have hz : List.replicate 16 (0 : Nat) = encRecord 0 [] ++ [] := by decide
    rw [Nat.zero_add, List.drop_left' (frames_length 0 ps), hz]
  have hstep : recoverScan log (0 + framesLen ps) (if ps.length = 0 then 0 else 0 + ps.length) =
      recoverScanF log.length log (0 + framesLen ps + 16 + 0) (0 % 2 ^ 64 + 1) := by
    show recoverScanF (log.length + 1) log _ _ = _
    exact recoverScanF_frame hdrop (by norm_num)
  rw [hstep]
  have hlen : log.length = framesLen ps + 16 := by
    rw [hlog]
    simp
  rw [recoverScanF_to_canonical (by omega), recoverScan_eof (by omega)]
  norm_num

/-- A trailing frame whose CRC field does not match its payload is truncated
away, preserving the `next_offset` computed from the valid prefix. -/
theorem recoverScan_bad_tail {ps : List (List Nat)} (hp : ∀ p ∈ ps, p.length < 2 ^ 31)
    (hb : ps.length ≤ 2 ^ 64) {off c : Nat} {p2 : List Nat}
    (hp2 : p2.length < 2 ^ 31) (hc : c < 2 ^ 32) (hne : c ≠ crc32 p2) :
    recoverScan
      (frames 0 ps ++ (toBytesBE 8 off ++ (toBytesBE 4 p2.length ++ (toBytesBE 4 c ++ p2))))
      0 0 = .ok ps.length (frames 0 ps) := by
  set tail := toBytesBE 8 off ++ (toBytesBE 4 p2.length ++ (toBytesBE 4 c ++ p2)) with htail
  have h1 := recoverScan_frames ps hp (show 0 + ps.length ≤ 2 ^ 64 by omega)
    tail 0 (show (frames 0 ps ++ tail).drop 0 = frames 0 ps ++ tail by simp)
  rw [h1]
  set log := frames 0 ps ++ tail with hlog
  have hdrop : log.drop (0 + framesLen ps) =
      toBytesBE 8 off ++ (toBytesBE 4 p2.length ++ (toBytesBE 4 c ++ (p2 ++ []))) := by
    rw [hlog, Nat.zero_add, List.drop_left' (frames_length 0 ps), htail]
    simp
  have hstep : recoverScan log (0 + framesLen ps) (if ps.length = 0 then 0 else 0 + ps.length) =
      .ok (if ps.length = 0 then 0 else 0 + ps.length) (log.take (0 + framesLen ps)) := by
    show recoverScanF (log.length + 1) log _ _ = _
    exact recoverScanF_bad_crc hdrop hp2 hc hne
  rw [hstep]
  have htake : log.take (0 + framesLen ps) = frames 0 ps := by
    rw [hlog, Nat.zero_add, List.take_left' (frames_length 0 ps)]
  rw [htake]
  by_cases hz : ps.length = 0
  · rw [if_pos hz, hz]
  · rw [if_neg hz, Nat.zero_add]

/-- Either an `Append` call succeeds, or it leaves `next_offset` untouched. -/
theorem append_next_cases (s : Segment) (e : LogEntry) (wfail : Nat → Bool) :
    (s.append e wfail).2 = none ∨ (s.append e wfail).1.nextOffset = s.nextOffset := by
  by_cases h0 : wfail 0 = true
  · right
    simp [Segment.append, h0]
  by_cases h1 : wfail 1 = true
  · right
    simp [Segment.append, h0, h1]
  by_cases h2 : wfail 2 = true
  · right
    simp [Segment.append, h0, h1, h2]
  by_cases h3 : wfail 3 = true
  · right
    simp [Segment.append, h0, h1, h2, h3]
  cases hgl : s.indexEntries.getLast? with
  | none =>
      by_cases h4 : wfail 4 = true
      · right
        simp [Segment.append, h0, h1, h2, h3, hgl, h4]
      by_cases h5 : wfail 5 = true
      · right
        simp [Segment.append, h0, h1, h2, h3, hgl, h4, h5]
      · left
        simp [Segment.append, h0, h1, h2, h3, hgl, h4, h5]
  | some last =>
      by_cases hc : 4096 ≤ s.log.length - last.position
      · by_cases h4 : wfail 4 = true
        · right
          simp [Segment.append, h0, h1, h2, h3, hgl, hc, h4]
        by_cases h5 : wfail 5 = true
        · right
          simp [Segment.append, h0, h1, h2, h3, hgl, hc, h4, h5]
        · left
          simp [Segment.append, h0, h1, h2, h3, hgl, hc, h4, h5]
      · left
        simp [Segment.append, h0, h1, h2, h3, hgl, hc]

/-- The partition-creation loop reports the first failing partition id. -/
theorem openPartitions_first_fail (openOk : Nat → Bool) :
    ∀ (k start i : Nat), start ≤ i → i < start + k →
      (∀ j, start ≤ j → j < i → openOk j = true) → openOk i = false →
      openPartitions openOk start k = .error i := by
  intro k
  induction k with
  | zero =>
      intro start i h1 h2
      omega
  | succ k ih =>
      intro start i h1 h2 hprev hfail
      by_cases hs : start = i
      · subst hs
        simp [openPartitions, hfail]
      · have h3 : openOk start = true := hprev start (Nat.le_refl _) (by omega)
        simp only [openPartitions, h3, if_true]
        rw [ih (start + 1) i (by omega) (by omega)
          (fun j hj1 hj2 => hprev j (by omega) hj2) hfail]
        rfl

/-! ## The claims -/

/-- C1: the spec claims successive successful `Partition.Append` calls
return strictly increasing offsets starting at 0.  The code instead returns
0 from every successful append: `Segment.Append` receives the `LogEntry` by
value and assigns the offset to its local copy, so `Partition.Append`
returns the zero value of `entry.Offset`.  On a fresh partition both the
first and the second (successful) append return offset 0. -/
theorem c1_append_always_returns_zero :
    ((Partition.fresh 0).append [97]).2 = Except.ok 0 ∧
    (((Partition.fresh 0).append [97]).1.append [98]).2 = Except.ok 0 ∧
    (((Partition.fresh 0).append [97]).1.append [98]).1.nextOffset = 2 :=
  ⟨rfl, rfl, rfl⟩

/-- C2: the spec claims `append(payload) → o` followed by `read(o)` returns
that payload.  The second append on a fresh partition successfully writes
`[98]` (the partition then holds two records) but returns offset 0, and
reading offset 0 yields the first payload `[97]`, not `[98]`. -/
theorem c2_roundtrip_fails_at_returned_offset :
    (((Partition.fresh 0).append [97]).1.append [98]).2 = Except.ok 0 ∧
    (((Partition.fresh 0).append [97]).1.append [98]).1.read 0 = .ok ⟨0, [97]⟩ ∧
    [97] ≠ [98] :=
  ⟨rfl, by decide, by decide⟩

/-- C3 fails as stated: a segment holding offsets 0 and 1 (so
`next_offset = 2`) gets 16 zero bytes appended to its log file; reopening
succeeds WITHOUT truncating the log and sets `next_offset` to 1 — the 16
zero bytes parse as a valid record with offset 0 (CRC-32 of an empty
payload is 0), not as a corrupt tail. -/
theorem c3_counterexample :
    (((freshSegment 0).appendOk ⟨0, [1]⟩).appendOk ⟨0, [2]⟩).nextOffset = 2 ∧
    (let s := ((freshSegment 0).appendOk ⟨0, [1]⟩).appendOk ⟨0, [2]⟩
     newSegment 0 (s.log ++ List.replicate 16 0) s.indexFile =
       .ok ⟨0, s.log ++ List.replicate 16 0, s.indexFile, s.log.length + 16, 1,
         s.indexEntries⟩) := by
  decide

/-- C3 (amended): during recovery, only a CRC mismatch triggers
truncate-at-record-start-and-stop (case 4, which preserves the prefix's
`next_offset`); a clean reopen finds all records (case 1); a partial
trailing frame (1–15 extra bytes) makes recovery return an error, so the
segment fails to open instead of being truncated (case 3); and a tail of 16
zero bytes parses as a valid record with offset 0 and empty payload, so
reopening succeeds untruncated with `next_offset` reset to 1 rather than
largest valid offset + 1 (case 2). -/
theorem c3_amended (ps : List (List Nat)) (hp : ∀ p ∈ ps, p.length < 2 ^ 31)
    (hb : ps.length ≤ 2 ^ 64) (idxBytes : List Nat) (es : List IndexEntry)
    (hidx : loadIndex idxBytes = .ok es) :
    (newSegment 0 (frames 0 ps) idxBytes =
      .ok ⟨0, frames 0 ps, idxBytes, (frames 0 ps).length, ps.length, es⟩) ∧
    (newSegment 0 (frames 0 ps ++ List.replicate 16 0) idxBytes =
      .ok ⟨0, frames 0 ps ++ List.replicate 16 0, idxBytes,
        (frames 0 ps ++ List.replicate 16 0).length, 1, es⟩) ∧
    (∀ j, 0 < j → j < 16 →
      ∃ msg, newSegment 0 (frames 0 ps ++ List.replicate j 0) idxBytes = .fail msg) ∧
    (∀ off c p2, p2.length < 2 ^ 31 → c < 2 ^ 32 → c ≠ crc32 p2 →
      newSegment 0
        (frames 0 ps ++ (toBytesBE 8 off ++ (toBytesBE 4 p2.length ++ (toBytesBE 4 c ++ p2))))
        idxBytes =
      .ok ⟨0, frames 0 ps, idxBytes,
        (frames 0 ps ++
          (toBytesBE 8 off ++ (toBytesBE 4 p2.length ++ (toBytesBE 4 c ++ p2)))).length,
        ps.length, es⟩) := by
  refine ⟨?_, ?_, ?_, ?_⟩
  · simp only [newSegment, hidx, recoverScan_clean hp hb]
  · simp only [newSegment, hidx, recoverScan_zeros16 hp hb]
  · intro j hj1 hj2
    obtain ⟨msg, hm⟩ := recoverScan_short (if ps.length = 0 then 0 else 0 + ps.length)
      (show framesLen ps < (frames 0 ps ++ List.replicate j 0).length by simp; omega)
      (show (frames 0 ps ++ List.replicate j 0).length < framesLen ps + 16 by simp; omega)
    have h1 := recoverScan_frames ps hp (show 0 + ps.length ≤ 2 ^ 64 by omega)
      (List.replicate j 0) 0
      (show (frames 0 ps ++ List.replicate j 0).drop 0 =
        frames 0 ps ++ List.replicate j 0 by simp)
    rw [Nat.zero_add] at h1
    refine ⟨msg, ?_⟩
    simp only [newSegment, hidx, h1, hm]
  · intro off c p2 hp2 hc hne
    simp only [newSegment, hidx, recoverScan_bad_tail hp hb hp2 hc hne]

/-- C3 amended-claim witness at a concrete input. -/
theorem c3_amended_witness :
    newSegment 0 (frames 0 [[1]] ++ List.replicate 16 0) [] =
      .ok ⟨0, frames 0 [[1]] ++ List.replicate 16 0, [],
        (frames 0 [[1]] ++ List.replicate 16 0).length, 1, []⟩ :=
  (c3_amended [[1]] (by decide) (by norm_num) [] [] rfl).2.1

/-- C4 fails as stated: `CreateTopic` with 0 partitions does not fail with
InvalidArgument — it succeeds and registers the topic. -/
theorem c4_counterexample :
    Registry.createTopic ⟨[]⟩ "t" 0 (fun _ => true) = .ok ⟨[("t", ⟨"t", []⟩)]⟩ := by
  decide

/-- C4 (amended): `CreateTopic` performs no validation of the partition
count.  With `num_partitions = 0` it succeeds and registers a topic with no
partitions (for any name not yet registered); with a negative count it
panics in `make([]*Partition, n)`.  No InvalidArgument error is produced. -/
theorem c4_amended (reg : Registry) (name : String) (openOk : Nat → Bool)
    (hfree : (reg.topics.lookup name).isSome = false) :
    reg.createTopic name 0 openOk = .ok ⟨reg.topics ++ [(name, ⟨name, []⟩)]⟩ ∧
    ∀ n : Int, n < 0 → reg.createTopic name n openOk = .panicked := by
  constructor
  · simp [Registry.createTopic, hfree, openPartitions]
  · intro n hn
    simp [Registry.createTopic, hfree, hn]

/-- C4 amended-claim witness at a concrete input. -/
theorem c4_amended_witness :
    Registry.createTopic ⟨[]⟩ "topic" 0 (fun _ => true) =
      .ok ⟨[("topic", ⟨"topic", []⟩)]⟩ ∧
    Registry.createTopic ⟨[]⟩ "topic" (-3) (fun _ => true) = .panicked :=
  ⟨(c4_amended ⟨[]⟩ "topic" (fun _ => true) rfl).1,
   (c4_amended ⟨[]⟩ "topic" (fun _ => true) rfl).2 (-3) (by norm_num)⟩

/-- C5: `CreateTopic` fails with the already-exists error on a duplicate
name, leaving the registry unchanged and closing nothing; and when opening
the `i`-th partition fails (all earlier ones having succeeded), exactly the
partitions created so far (`0..i-1`) are closed, the error is returned, and
the topic is not inserted — the registry is unchanged. -/
theorem c5_createTopic_rollback (reg : Registry) (name : String) (n : Int)
    (openOk : Nat → Bool) :
    ((reg.topics.lookup name).isSome = true →
      reg.createTopic name n openOk =
        .fail ("topic " ++ name ++ " already exists") reg []) ∧
    ((reg.topics.lookup name).isSome = false → 0 ≤ n →
      ∀ i : Nat, i < n.toNat → (∀ j, j < i → openOk j = true) → openOk i = false →
        reg.createTopic name n openOk = .fail "partition open error" reg (List.range i)) := by
  constructor
  · intro hdup
    simp [Registry.createTopic, hdup]
  · intro hfree hn i hi hprev hfail
    have hopen := openPartitions_first_fail openOk n.toNat 0 i (by omega) (by omega)
      (fun j _ hj => hprev j hj) hfail
    have hn2 : ¬(n < 0) := by omega
    simp [Registry.createTopic, hfree, hn2, hopen]

/-- C5 witness at concrete inputs: duplicate topic, and a partition-open
failure at id 1 out of 3 (id 0 was created and is closed). -/
theorem c5_witness :
    Registry.createTopic ⟨[("a", ⟨"a", []⟩)]⟩ "a" 2 (fun _ => true) =
      .fail ("topic " ++ "a" ++ " already exists") ⟨[("a", ⟨"a", []⟩)]⟩ [] ∧
    Registry.createTopic ⟨[]⟩ "b" 3 (fun j => decide (j ≠ 1)) =
      .fail "partition open error" ⟨[]⟩ (List.range 1) :=
  ⟨(c5_createTopic_rollback ⟨[("a", ⟨"a", []⟩)]⟩ "a" 2 (fun _ => true)).1 rfl,
   (c5_createTopic_rollback ⟨[]⟩ "b" 3 (fun j => decide (j ≠ 1))).2 rfl (by norm_num)
     1 (by norm_num) (by decide) (by decide)⟩

/-- C6 fails only in the error kind: with one record appended, reading
offset 1 (= K) produces the partition-level lookup error, whose message says
"not found", not the segment-level "out of range" error the claim names. -/
theorem c6_counterexample :
    (replayPart [[42]]).read 1 = .err "offset 1 not found in partition 0" ∧
    "offset 1 not found in partition 0" ≠ "offset 1 out of range [0, 1)" := by
  decide

/-- C6 (amended): after K successful appends on a fresh partition, reads of
offsets 0..K-1 all succeed (each returning the record with that offset);
the read of offset K fails, but with the partition-level "offset K not
found in partition" error — no segment's range contains K, so the
segment-level OutOfRange check is never reached.  Payloads are within the
spec's data-model bound (< 2^31 bytes). -/
theorem c6_read_range (tr : List (List Nat)) (hp : ∀ p ∈ tr, p.length < 2 ^ 31)
    (hb : tr.length ≤ 2 ^ 64) :
    (∀ o, o < tr.length → (replayPart tr).read o = .ok ⟨o, tr.getD o []⟩) ∧
    (replayPart tr).read tr.length =
      .err ("offset " ++ toString tr.length ++ " not found in partition " ++
        toString (0 : Nat)) := by
  obtain ⟨hid, hne, hrel⟩ := replay_rel tr
  constructor
  · intro o ho
    obtain ⟨s, hfind, hread⟩ := segsRel_find_read hrel hp (by omega) o (by omega) (by omega)
    simp only [Partition.read, hfind, hread]
    rfl
  · have hfind := segsRel_find_none hrel tr.length (by omega)
    simp only [Partition.read, hfind, hid]

/-- C6 amended-claim witness at a concrete input. -/
theorem c6_witness :
    (replayPart [[7]]).read 0 = .ok ⟨0, [7]⟩ ∧
    (replayPart [[7]]).read 1 =
      .err ("offset " ++ toString (1 : Nat) ++ " not found in partition " ++
        toString (0 : Nat)) :=
  ⟨(c6_read_range [[7]] (by decide) (by norm_num)).1 0 (by norm_num),
   (c6_read_range [[7]] (by decide) (by norm_num)).2⟩

/-- C7: whenever `Segment.Append` returns an error — whichever of its six
writes fails — the segment's `next_offset` is the same after the call as
before it. -/
theorem c7_append_error_preserves_next (s : Segment) (e : LogEntry) (wfail : Nat → Bool)
    (msg : String) (herr : (s.append e wfail).2 = some msg) :
    (s.append e wfail).1.nextOffset = s.nextOffset := by
  rcases append_next_cases s e wfail with h | h
  · rw [h] at herr
    cases herr
  · exact h

/-- C7 witness: the CRC write (write number 2) fails. -/
theorem c7_witness :
    ((freshSegment 0).append ⟨0, [9]⟩ (fun n => decide (n = 2))).1.nextOffset =
      (freshSegment 0).nextOffset :=
  c7_append_error_preserves_next (freshSegment 0) ⟨0, [9]⟩ (fun n => decide (n = 2))
    "write error" (by decide)

/-- C8: in every reachable partition state, every segment's in-memory index
holds at most `ceil(log_size / index_interval) + 1` entries, and the
entries' relative offsets are strictly increasing. -/
theorem c8_index_sparsity (tr : List (List Nat)) (s : Segment)
    (hs : s ∈ (replayPart tr).segments) :
    s.indexEntries.length ≤ (s.size + (indexInterval - 1)) / indexInterval + 1 ∧
    List.Pairwise (fun a b => a.relativeOffset < b.relativeOffset) s.indexEntries := by
  obtain ⟨hid, hne, hrel⟩ := replay_rel tr
  obtain ⟨ps, hsr, hdisc⟩ := segsRel_mem hrel s hs
  refine ⟨?_, hsr.idx.sorted⟩
  have h1 := idx_count_bound hsr.idx
  rw [hsr.size_eq]
  have h2 : indexInterval - 1 = 4095 := by norm_num [indexInterval]
  rw [h2]
  simpa [indexInterval] using h1

/-- C8 witness at a concrete reachable segment. -/
theorem c8_witness :
    (((freshSegment 0).appendOk ⟨0, [1]⟩).appendOk ⟨0, [2]⟩).indexEntries.length ≤
      ((((freshSegment 0).appendOk ⟨0, [1]⟩).appendOk ⟨0, [2]⟩).size +
        (indexInterval - 1)) / indexInterval + 1 ∧
    List.Pairwise (fun a b => a.relativeOffset < b.relativeOffset)
      (((freshSegment 0).appendOk ⟨0, [1]⟩).appendOk ⟨0, [2]⟩).indexEntries :=
  c8_index_sparsity [[1], [2]] (((freshSegment 0).appendOk ⟨0, [1]⟩).appendOk ⟨0, [2]⟩)
    (by decide)

/-- C9: in every reachable partition state the segment list is nonempty,
consecutive segments chain (each later segment's base offset equals its
predecessor's next offset at roll time), ranges `[base, next)` are pairwise
disjoint, and their union is exactly `[0, active next offset)`. -/
theorem c9_segment_coverage (tr : List (List Nat)) :
    (replayPart tr).segments ≠ [] ∧
    List.Chain' (fun s1 s2 => s2.baseOffset = s1.nextOffset) (replayPart tr).segments ∧
    (∀ s ∈ (replayPart tr).segments, s.baseOffset ≤ s.nextOffset) ∧
    List.Pairwise (fun s1 s2 => ∀ o, s1.baseOffset ≤ o → o < s1.nextOffset →
      ¬(s2.baseOffset ≤ o ∧ o < s2.nextOffset)) (replayPart tr).segments ∧
    (∀ o, o < (replayPart tr).nextOffset ↔
      ∃ s ∈ (replayPart tr).segments, s.baseOffset ≤ o ∧ o < s.nextOffset) := by
  obtain ⟨hid, hne, hrel⟩ := replay_rel tr
  refine ⟨hne, segsRel_chain hrel, fun s hs => (segsRel_lb hrel s hs).2, ?_, ?_⟩
  · exact (segsRel_ordered hrel).imp (fun h o h1 h2 h3 => by omega)
  · intro o
    rw [replay_nextOffset]
    have h1 := segsRel_union hrel o (by omega)
    rw [Nat.zero_add] at h1
    exact h1.symm

/-- C9 witness at a concrete input. -/
theorem c9_witness :
    (replayPart [[5]]).segments ≠ [] ∧
    (0 < (replayPart [[5]]).nextOffset ↔
      ∃ s ∈ (replayPart [[5]]).segments, s.baseOffset ≤ 0 ∧ 0 < s.nextOffset) :=
  ⟨(c9_segment_coverage [[5]]).1, (c9_segment_coverage [[5]]).2.2.2.2 0⟩

/-- C10: `Segment.Append` never reads the Offset field of the entry passed
in (the append result is identical for any Offset value); a fault-free
append writes the record framed with the segment's current `next_offset`
and increments `next_offset` by exactly one; and after K appends on a fresh
partition, `Partition.NextOffset` returns K. -/
theorem c10_offset_assignment :
    (∀ (s : Segment) (e : LogEntry) (wfail : Nat → Bool),
      s.append e wfail = s.append ⟨0, e.payload⟩ wfail) ∧
    (∀ (s : Segment) (e : LogEntry),
      (s.appendOk e).log = s.log ++ encRecord s.nextOffset e.payload ∧
      (s.appendOk e).nextOffset = s.nextOffset + 1 ∧
      (s.append e noFail).2 = none) ∧
    (∀ tr : List (List Nat), (replayPart tr).nextOffset = tr.length) := by
  refine ⟨append_offset_irrelevant, fun s e => ?_, replay_nextOffset⟩
  have hf := (appendOk_fields s e).1
  exact ⟨by rw [hf], by rw [hf], (appendOk_fields s e).2⟩

end KafkaClone
